import Mathlib

/-!
Verification development for the task-orchestration core of the `nx` fork:
task-graph construction (`createTaskGraphForTargetsAndProjects`), the file
hashers (`packages/nx/src/hasher/file-hasher.ts`), the hash planner and the
scheduler described by the specification.  TypeScript sources are embedded
shallowly: JS objects become association lists, thrown errors become
`Except`, and the natively-compiled hashers (absent from the snapshot) are
modelled from the specification as idealized collision-free digests.
-/

namespace Nx

/-- Association-list lookup for string-keyed JS objects / maps. -/
def lookupKey {β : Type} (k : String) : List (String × β) → Option β
  | [] => none
  | (k', v) :: rest => if k' = k then some v else lookupKey k rest

/-- Keys of a string-keyed association list, in insertion order
(JS `Object.keys`). -/
def keysOfMap {β : Type} (m : List (String × β)) : List String :=
  m.map Prod.fst

/-- Kernel-computable lexicographic comparison of character lists by code
point; used to model JS default string sorting. -/
def charListLe : List Char → List Char → Bool
  | [], _ => true
  | _ :: _, [] => false
  | a :: as, b :: bs =>
    if a.toNat < b.toNat then true
    else if b.toNat < a.toNat then false
    else charListLe as bs

/-- String comparison (code-point lexicographic), modelling the default JS
`Array.prototype.sort` comparator on string keys. -/
def strLe (a b : String) : Bool :=
  charListLe a.data b.data

/-- Kernel-computable character-list prefix test. -/
def charListIsPre : List Char → List Char → Bool
  | [], _ => true
  | _ :: _, [] => false
  | a :: as, b :: bs => a == b && charListIsPre as bs

/-- String prefix test on the underlying character data (the core
`String.isPrefixOf` does not reduce in the kernel). -/
def strStartsWith (s pre : String) : Bool :=
  charListIsPre pre.data s.data

/-- Digest values produced by the hashing layer.  Modelled from the spec:
the natively-compiled hashers (`hash_array_harmonized`,
`hash_file_harmonized` and the native `hashArray` imported by
`packages/nx/src/hasher/file-hasher.ts`) are not part of the source
snapshot; spec §4.2 describes them as cryptographic content digests, which
we idealize as a collision-free (constructor-injective) digest tree. -/
inductive Digest where
  | atom (s : String)
  | node (tag : String) (children : List Digest)
deriving Repr

/-- JSON-serializable JS values, as consumed by `JSON.stringify` inside
`hashObject`. -/
inductive JsVal where
  | null
  | bool (b : Bool)
  | num (n : Int)
  | str (s : String)
  | arr (xs : List JsVal)
  | obj (fields : List (String × JsVal))
deriving Repr

mutual

/-- Model of `JSON.stringify` on a JS value. -/
def JsVal.stringify : JsVal → String
  | .null => "null"
  | .bool true => "true"
  | .bool false => "false"
  | .num n => toString n
  | .str s => "\"" ++ s ++ "\""
  | .arr xs => "[" ++ JsVal.stringifyList xs ++ "]"
  | .obj fs => "\x7b" ++ JsVal.stringifyFields fs ++ "\x7d"

/-- Comma-separated serialization of a JSON array body. -/
def JsVal.stringifyList : List JsVal → String
  | [] => ""
  | [x] => JsVal.stringify x
  | x :: y :: rest => JsVal.stringify x ++ "," ++ JsVal.stringifyList (y :: rest)

/-- Comma-separated serialization of a JSON object body. -/
def JsVal.stringifyFields : List (String × JsVal) → String
  | [] => ""
  | [(k, v)] => "\"" ++ k ++ "\":" ++ JsVal.stringify v
  | (k, v) :: f :: rest =>
      "\"" ++ k ++ "\":" ++ JsVal.stringify v ++ "," ++ JsVal.stringifyFields (f :: rest)

end

/-- A JS `object`-typed argument, which at runtime may also be `null` or
`undefined` (both nullish); `hashObject` receives such a value. -/
inductive JsObj where
  | null
  | undef
  | obj (fields : List (String × JsVal))
deriving Repr

/-- Fields of `obj ?? {}`: the JS nullish-coalescing step of `hashObject`
maps `null` and `undefined` to the empty object. -/
def JsObj.fieldsOrEmpty : JsObj → List (String × JsVal)
  | .null => []
  | .undef => []
  | .obj fs => fs

/-- Modelled from the spec: the native `hashArray` imported by `hashObject`
(`require('../native')`), an idealized collision-free digest of a string
list (spec §4.2: fragments are concatenated and reduced by a cryptographic
hash). -/
def nativeHashArray (content : List String) : Digest :=
  .node "native-hash-array" (content.map .atom)

/-- Modelled from the spec: the native `hash_array_harmonized` used by the
exported `hashArray` of `file-hasher.ts`; the source requests semantic
hashing (`semantic = true`), which the spec (§4.2) still describes as a
content digest, so it is idealized as a collision-free digest tagged by the
flag. -/
def hash_array_harmonized (content : List String) (semantic : Bool) : Digest :=
  .node (if semantic then "harmonized-array-semantic" else "harmonized-array")
    (content.map .atom)

/-- Modelled from the spec: the native `hash_file_harmonized` used by the
exported `hashFile`.  The native code reads the file at `filePath`; the
embedding receives the file contents explicitly.  Spec §4.2 calls for a
content hash keyed by relative path, idealized as a collision-free digest
of path and content. -/
def hash_file_harmonized (filePath : String) (content : String)
    (semantic : Bool) : Digest :=
  .node (if semantic then "harmonized-file-semantic" else "harmonized-file")
    [.atom filePath, .atom content]

/-- `hashArray` from `packages/nx/src/hasher/file-hasher.ts`: delegates to
`hash_array_harmonized` with the semantic flag set. -/
def hashArray (content : List String) : Digest :=
  hash_array_harmonized content true

/-- `hashObject` from `packages/nx/src/hasher/file-hasher.ts`: pushes each
key of `obj ?? {}` in sorted order followed by `JSON.stringify(obj[key])`,
then digests the parts with the native `hashArray`. -/
def hashObject (obj : JsObj) : Digest :=
  let fields := obj.fieldsOrEmpty
  let sortedKeys := (keysOfMap fields).insertionSort (fun a b => strLe a b = true)
  let parts := sortedKeys.flatMap fun key =>
    [key, ((lookupKey key fields).map JsVal.stringify).getD "undefined"]
  nativeHashArray parts

/-- `hashFile` from `packages/nx/src/hasher/file-hasher.ts`: delegates to
`hash_file_harmonized` with the semantic flag set; `files` stands for the
file system the native hasher reads. -/
def hashFile (files : List (String × String)) (filePath : String) : Digest :=
  hash_file_harmonized filePath ((lookupKey filePath files).getD "") true

/-- Type of a project-graph edge (spec §3): only `static` (and, per the
spec's default, not `dynamic`/`implicit`) participates in `^target`
expansion. -/
inductive DependencyType where
  | static
  | dynamic
  | implicit
deriving DecidableEq, Repr

/-- One outgoing edge of `ProjectGraph.dependencies` (spec §3). -/
structure ProjectGraphDependency where
  target : String
  depType : DependencyType
deriving DecidableEq, Repr

/-- A `dependsOn` entry (spec §3): either `"self:<target>"` (same project)
or `"^<target>"` (same target on statically depended-upon projects),
encoded as a sum instead of string syntax. -/
inductive DependencyRef where
  | selfTarget (target : String)
  | upstream (target : String)
deriving DecidableEq, Repr

/-- Target configuration (spec §3): executor reference, `dependsOn`,
named input patterns, named configurations, default configuration and the
`continuous` marker. -/
structure TargetConfiguration where
  executor : String
  dependsOn : List DependencyRef
  inputs : List String
  configurations : List String
  defaultConfiguration : Option String
  continuous : Bool
deriving DecidableEq, Repr

/-- A project node: root path plus its targets map (spec §3). -/
structure ProjectNode where
  root : String
  targets : List (String × TargetConfiguration)
deriving DecidableEq, Repr

/-- The workspace-wide project graph consumed by the core (spec §3). -/
structure ProjectGraph where
  nodes : List (String × ProjectNode)
  dependencies : List (String × List ProjectGraphDependency)
deriving DecidableEq, Repr

/-- Identity of a task: `(project, target, configuration?)` (spec §3);
kept structured, with `taskIdOf` producing the deterministic string key. -/
structure TaskSpec where
  project : String
  target : String
  configuration : Option String
deriving DecidableEq, Repr

/-- Deterministic string key of a task identity. -/
def taskIdOf (s : TaskSpec) : String :=
  s.project ++ ":" ++ s.target ++
    (match s.configuration with
     | none => ""
     | some c => ":" ++ c)

/-- Fatal task-graph construction errors (spec §7): missing configuration
and dependency cycles; `fuelExhausted` is the (provably unreachable at the
fuel used by `createTaskGraph`) bound of the recursion embedding. -/
inductive GraphError where
  | missingConfiguration (project target requested : String)
  | cycleDetected (path : List TaskSpec)
  | fuelExhausted
deriving DecidableEq, Repr

/-- Message of a thrown graph error (`err.message` in the caller). -/
def GraphError.message : GraphError → String
  | .missingConfiguration p t c =>
      "Project " ++ p ++ " does not support configuration " ++ c ++
        " for target " ++ t
  | .cycleDetected path =>
      "Could not execute command because the task graph has a cycle: " ++
        String.intercalate " -> " (path.map taskIdOf)
  | .fuelExhausted => "Task graph expansion exceeded its bound"

/-- Modelled from the spec (§4.1 step 3): resolve the effective
configuration of a target; a requested configuration absent from the
target falls back to the declared default, and a configuration-specific
request with neither fails with `MissingConfigurationError`. -/
def resolveConfiguration (project target : String) (tc : TargetConfiguration)
    (requested : Option String) : Except GraphError (Option String) :=
  match requested with
  | none => .ok tc.defaultConfiguration
  | some c =>
    if tc.configurations.contains c then .ok (some c)
    else
      match tc.defaultConfiguration with
      | some d => .ok (some d)
      | none => .error (.missingConfiguration project target c)

/-- Does `project` declare `target`? -/
def targetExists (pg : ProjectGraph) (project target : String) : Bool :=
  ((lookupKey project pg.nodes).bind fun node =>
    lookupKey target node.targets).isSome

/-- Modelled from the spec (§4.1 step 4): expand `dependsOn` of a target
into `(project, target)` pairs.  `self:<t>` yields the same project (pairs
whose target the project does not declare are silently skipped, as for
`^<t>`); `^<t>` yields one pair per `static`-typed outgoing edge whose
head declares `t`. -/
def expandDeps (pg : ProjectGraph) (project : String)
    (tc : TargetConfiguration) : List (String × String) :=
  tc.dependsOn.flatMap fun
    | .selfTarget t => if targetExists pg project t then [(project, t)] else []
    | .upstream t =>
      ((lookupKey project pg.dependencies).getD []).filterMap fun e =>
        if e.depType = .static ∧ targetExists pg e.target t then
          some (e.target, t)
        else none

/-- The task identity (plus continuity of its target) a dependency pair
resolves to, when its configuration resolves; `none` when the project or
target is absent or the configuration is missing. -/
def depSpec (pg : ProjectGraph) (cfg : Option String) (project target : String) :
    Option (TaskSpec × Bool) :=
  (lookupKey project pg.nodes).bind fun node =>
    (lookupKey target node.targets).bind fun tc =>
      match resolveConfiguration project target tc cfg with
      | .ok eff => some (⟨project, target, eff⟩, tc.continuous)
      | .error _ => none

/-- The dependency task identities induced by `dependsOn` expansion of a
task identity, tagged with whether the dependency task is continuous
(spec §4.1 steps 4-5). -/
def specDepsTagged (pg : ProjectGraph) (cfg : Option String) (s : TaskSpec) :
    List (TaskSpec × Bool) :=
  match lookupKey s.project pg.nodes with
  | none => []
  | some node =>
    match lookupKey s.target node.targets with
    | none => []
    | some tc =>
      (expandDeps pg s.project tc).filterMap fun pt =>
        depSpec pg cfg pt.1 pt.2

/-- The `dependsOn`-induced dependency relation on task identities: all
expanded dependency tasks of `s`, both blocking and continuous. -/
def specDeps (pg : ProjectGraph) (cfg : Option String) (s : TaskSpec) :
    List TaskSpec :=
  (specDepsTagged pg cfg s).map Prod.fst

/-- Blocking dependency task identities of `s` (edges whose head is not a
continuous task, spec §4.1 step 5). -/
def blockingOf (pg : ProjectGraph) (cfg : Option String) (s : TaskSpec) :
    List TaskSpec :=
  ((specDepsTagged pg cfg s).filter fun d => !d.2).map Prod.fst

/-- Continuous dependency task identities of `s` (edges whose head is a
continuous task, spec §4.1 step 5). -/
def continuousOf (pg : ProjectGraph) (cfg : Option String) (s : TaskSpec) :
    List TaskSpec :=
  ((specDepsTagged pg cfg s).filter fun d => d.2).map Prod.fst

/-- One concrete task of the task graph (spec §3). -/
structure Task where
  id : String
  project : String
  target : String
  configuration : Option String
  continuous : Bool
deriving DecidableEq, Repr

/-- Memo entry of the builder: the task record plus its blocking and
continuous dependency identities. -/
structure TaskEntry where
  task : Task
  blocking : List TaskSpec
  contDeps : List TaskSpec
deriving DecidableEq, Repr

/-- Builder memo, newest entry first (so the reversed memo lists tasks in
completion order, dependencies before dependents). -/
def Memo : Type := List (TaskSpec × TaskEntry)

/-- Task identities recorded in a memo. -/
def memoKeys (memo : Memo) : List TaskSpec :=
  memo.map Prod.fst

/-- The memo entry recorded for a task identity. -/
def mkEntry (pg : ProjectGraph) (cfg : Option String) (s : TaskSpec)
    (tc : TargetConfiguration) : TaskEntry :=
  { task := { id := taskIdOf s, project := s.project, target := s.target,
              configuration := s.configuration, continuous := tc.continuous },
    blocking := blockingOf pg cfg s,
    contDeps := continuousOf pg cfg s }

/-- The cycle path reported on detection (spec §4.1 step 2): the ordered
list of task identities from the repeated one back to itself, read off the
visiting stack. -/
def cyclePath (spec : TaskSpec) (visiting : List TaskSpec) : List TaskSpec :=
  (visiting.reverse.dropWhile fun v => v != spec) ++ [spec]

/-- Fail-fast fold of a task resolver over a list of pending
`(project, target)` pairs, threading the memo and propagating the first
thrown graph error. -/
def foldExcept (f : Memo → String × String → Except GraphError Memo) :
    Memo → List (String × String) → Except GraphError Memo
  | memo, [] => .ok memo
  | memo, pt :: rest =>
    match f memo pt with
    | .error e => .error e
    | .ok memo' => foldExcept f memo' rest

/-- Modelled from the spec (§4.1): the recursive task expansion of
`createTaskGraph` (`tasks-runner/create-task-graph.ts`, not part of the
source snapshot).  A pending `(project, target)` pair is resolved:
memoized identities are shared, an identity already on the visiting stack
is a fatal cycle, configurations resolve with fallback, and `dependsOn`
children are expanded depth-first before the task is recorded.  Recursion
into children consumes one unit of fuel; `createTaskGraph` supplies fuel
exceeding the number of possible task identities, so exhaustion is
unreachable (the visiting stack holds distinct possible identities). -/
def resolveTask (pg : ProjectGraph) (cfg : Option String) :
    Nat → List TaskSpec → Memo → String × String → Except GraphError Memo
  | 0, _, _, _ => .error .fuelExhausted
  | fuel + 1, visiting, memo, pt =>
    match lookupKey pt.1 pg.nodes with
    | none => .ok memo
    | some node =>
      match lookupKey pt.2 node.targets with
      | none => .ok memo
      | some tc =>
        match resolveConfiguration pt.1 pt.2 tc cfg with
        | .error e => .error e
        | .ok eff =>
          let spec : TaskSpec := ⟨pt.1, pt.2, eff⟩
          if spec ∈ memoKeys memo then .ok memo
          else if spec ∈ visiting then
            .error (.cycleDetected (cyclePath spec visiting))
          else
            match foldExcept
                (fun m pt' => resolveTask pg cfg fuel (spec :: visiting) m pt')
                memo (expandDeps pg pt.1 tc) with
            | .error e => .error e
            | .ok memo' => .ok ((spec, mkEntry pg cfg spec tc) :: memo')

/-- All task identities the builder can ever push for this graph and
requested configuration: for each declared target, the identity with no
configuration, with the target's default, and with the requested one. -/
def allSpecs (pg : ProjectGraph) (cfg : Option String) : List TaskSpec :=
  pg.nodes.flatMap fun pn =>
    pn.2.targets.flatMap fun tt =>
      ⟨pn.1, tt.1, none⟩ :: ⟨pn.1, tt.1, tt.2.defaultConfiguration⟩ ::
        (match cfg with
         | none => []
         | some c => [⟨pn.1, tt.1, some c⟩])

/-- Fuel supplied by `createTaskGraph`: strictly more than the number of
possible task identities, so the visiting stack (whose members are
distinct possible identities) can never consume it. -/
def builderFuel (pg : ProjectGraph) (cfg : Option String) : Nat :=
  (allSpecs pg cfg).length + 1

/-- The requested `(project, target)` tuples: every requested target on
every requested project. -/
def requestedPairs (projects targets : List String) : List (String × String) :=
  projects.flatMap fun p => targets.map fun t => (p, t)

/-- The task graph produced for an invocation (spec §3): tasks, blocking
dependencies, continuous dependencies and roots, all keyed by task id. -/
structure TaskGraph where
  tasks : List (String × Task)
  dependencies : List (String × List String)
  continuousDependencies : List (String × List String)
  roots : List String
deriving DecidableEq, Repr

/-- The empty task graph returned alongside a fatal graph error. -/
def emptyTaskGraph : TaskGraph :=
  { tasks := [], dependencies := [], continuousDependencies := [], roots := [] }

/-- Read the finished memo off into a `TaskGraph`, in completion order
(dependencies before dependents); roots are the tasks whose blocking
dependency list is empty. -/
def taskGraphOfMemo (memo : Memo) : TaskGraph :=
  let entries := memo.reverse
  { tasks := entries.map fun se => (taskIdOf se.1, se.2.task),
    dependencies := entries.map fun se =>
      (taskIdOf se.1, se.2.blocking.map taskIdOf),
    continuousDependencies := entries.map fun se =>
      (taskIdOf se.1, se.2.contDeps.map taskIdOf),
    roots := entries.filterMap fun se =>
      if se.2.blocking.isEmpty then some (taskIdOf se.1) else none }

/-- Modelled from the spec (§4.1): `createTaskGraph` from
`tasks-runner/create-task-graph.ts` (not part of the source snapshot) —
expands the requested projects × targets into a full task graph or throws
a fatal graph error. -/
def createTaskGraph (pg : ProjectGraph) (projects targets : List String)
    (cfg : Option String) : Except GraphError TaskGraph :=
  match foldExcept
      (fun memo pt => resolveTask pg cfg (builderFuel pg cfg) [] memo pt)
      [] (requestedPairs projects targets) with
  | .error e => .error e
  | .ok memo => .ok (taskGraphOfMemo memo)

/-- Workspace-global configuration (`nx.json`), reduced to the settings the
hash planner folds into every task's digest. -/
structure NxJsonConfiguration where
  settings : List (String × JsVal)
deriving Repr

/-- One hash fragment of a task's hash plan: a kind, a source key and the
digest contributed (spec §3, §4.2). -/
structure HashFragment where
  kind : String
  key : String
  value : Digest
deriving Repr

/-- Digest of a single fragment. -/
def fragmentDigest (f : HashFragment) : Digest :=
  .node f.kind [.atom f.key, f.value]

/-- Canonical `(kind, key)` fragment ordering (spec §4.2: fragments are
sorted by a fixed kind+key ordering). -/
def fragLe (f g : HashFragment) : Bool :=
  if f.kind = g.kind then strLe f.key g.key else strLe f.kind g.kind

/-- A task's hash plan: its ordered fragment list reduced to one digest
(spec §3). -/
structure HashPlan where
  fragments : List HashFragment
  digest : Digest
deriving Repr

/-- Reduce an ordered fragment list to the task digest (spec §4.2),
idealized as a collision-free digest node. -/
def planDigest (frags : List HashFragment) : Digest :=
  .node "plan" (frags.map fragmentDigest)

/-- Modelled from the spec (§4.2): does `path` belong to the task's self
inputs — the project's owned source tree (project root as path prefix)
plus the target's declared input patterns (modelled as path prefixes)? -/
def matchesInputs (root : String) (patterns : List String) (path : String) :
    Bool :=
  strStartsWith path root || patterns.any fun p => strStartsWith path p

/-- Modelled from the spec: the native `HashPlanner` of
`createTaskGraphForTargetsAndProjects` (imported from `../../native`, not
part of the source snapshot), holding the workspace configuration, the
transferred project graph and the workspace file system it reads. -/
structure HashPlanner where
  nxJson : NxJsonConfiguration
  projectGraph : ProjectGraph
  files : List (String × String)

/-- Modelled from the spec (§4.2): the fragments of one task's hash plan,
in canonical sorted order — self-input file content hashes keyed by path,
the workspace-global configuration hash, the already-finalized digests of
the task's blocking dependencies (`missing` sentinel when absent), and the
task identity (executor, configuration, options). -/
def planFragments (planner : HashPlanner) (tg : TaskGraph)
    (digests : List (String × Digest)) (tid : String) : List HashFragment :=
  match lookupKey tid tg.tasks with
  | none => []
  | some task =>
    match lookupKey task.project planner.projectGraph.nodes with
    | none => []
    | some node =>
      match lookupKey task.target node.targets with
      | none => []
      | some tc =>
        let fileFrags := (planner.files.filter fun pc =>
            matchesInputs node.root tc.inputs pc.1).map fun pc =>
          HashFragment.mk "file" pc.1 (hash_file_harmonized pc.1 pc.2 true)
        let runtimeFrags :=
          [HashFragment.mk "workspace" "nxJson"
            (hashObject (.obj planner.nxJson.settings))]
        let depFrags := ((lookupKey tid tg.dependencies).getD []).map fun d =>
          HashFragment.mk "dep" d ((lookupKey d digests).getD (.atom "missing"))
        let identityFrags :=
          [HashFragment.mk "task" tid
            (.node "task-identity"
              [.atom task.project, .atom task.target,
               .atom (task.configuration.getD ""), .atom tc.executor])]
        (fileFrags ++ runtimeFrags ++ depFrags ++ identityFrags).insertionSort
          fun a b => fragLe a b = true

/-- One task's hash plan. -/
def taskPlan (planner : HashPlanner) (tg : TaskGraph)
    (digests : List (String × Digest)) (tid : String) : HashPlan :=
  let frags := planFragments planner tg digests tid
  { fragments := frags, digest := planDigest frags }

/-- Worker of `getPlans`: processes the task ids in order (the task list
is in completion order, dependencies before dependents), accumulating the
finalized digests consumed by dependents (the Merkle property,
spec §4.2). -/
def getPlansGo (planner : HashPlanner) (tg : TaskGraph) :
    List String → List (String × Digest) → List (String × HashPlan)
  | [], _ => []
  | tid :: rest, digests =>
    let plan := taskPlan planner tg digests tid
    (tid, plan) :: getPlansGo planner tg rest ((tid, plan.digest) :: digests)

/-- Modelled from the spec (§4.2 contract): `HashPlanner.getPlans`
produces one hash plan per requested task id. -/
def HashPlanner.getPlans (planner : HashPlanner) (taskIds : List String)
    (tg : TaskGraph) : List (String × HashPlan) :=
  getPlansGo planner tg taskIds []

/-- `transformProjectGraphForRust` from `native/transform-objects`
(marshalling only, not part of the source snapshot): modelled as the
identity on the embedded graph. -/
def transformProjectGraphForRust (pg : ProjectGraph) : ProjectGraph := pg

/-- `transferProjectGraph` from `../../native` (ownership transfer of the
marshalled graph): modelled as the identity on the embedded graph. -/
def transferProjectGraph (pg : ProjectGraph) : ProjectGraph := pg

/-- The response shape of `createTaskGraphForTargetsAndProjects`
(`TaskGraphClientResponse`): the task graph, the hash plans and the error
message of a caught fatal graph error. -/
structure TaskGraphResponse where
  taskGraph : TaskGraph
  plans : List (String × HashPlan)
  error : Option String

/-- The fallback project selection of
`createTaskGraphForTargetsAndProjects`: all projects whose targets map
defines at least one of the requested target names. -/
def projectsWithAnyTarget (pg : ProjectGraph) (targetNames : List String) :
    List String :=
  (pg.nodes.filter fun pn =>
    targetNames.any fun tn => (lookupKey tn pn.2.targets).isSome).map Prod.fst

/-- Project selection of `createTaskGraphForTargetsAndProjects`: the given
project names when the argument is present and non-empty (JS truthiness of
`projectNames && projectNames.length > 0`), otherwise every project having
at least one of the targets. -/
def projectsToUse (pg : ProjectGraph) (targetNames : List String)
    (projectNames : Option (List String)) : List String :=
  match projectNames with
  | some ps => if 0 < ps.length then ps else projectsWithAnyTarget pg targetNames
  | none => projectsWithAnyTarget pg targetNames

/-- `createTaskGraphForTargetsAndProjects` from
`command-line/graph/create-task-graph-for-targets-and-projects.ts`:
builds one task graph for the requested targets and projects, computes the
hash plans for its tasks, and catches fatal graph errors into an
empty-graph response carrying the error message.  `files` stands for the
workspace file system the native hash planner reads. -/
def createTaskGraphForTargetsAndProjects (projectGraph : ProjectGraph)
    (nxJson : NxJsonConfiguration) (targetNames : List String)
    (projectNames : Option (List String)) (configuration : Option String)
    (files : List (String × String)) : TaskGraphResponse :=
  let projects := projectsToUse projectGraph targetNames projectNames
  match createTaskGraph projectGraph projects targetNames configuration with
  | .error err =>
    { taskGraph := emptyTaskGraph, plans := [], error := some err.message }
  | .ok taskGraph =>
    let planner : HashPlanner :=
      { nxJson := nxJson,
        projectGraph := transferProjectGraph
          (transformProjectGraphForRust projectGraph),
        files := files }
    let taskIds := taskGraph.tasks.map Prod.fst
    let plans :=
      if 0 < taskIds.length then planner.getPlans taskIds taskGraph else []
    { taskGraph := taskGraph, plans := plans, error := none }

/-- Runtime outcome a task can be annotated with by the scheduler
(spec §3 lifecycle, §4.3 state machine). -/
inductive TaskOutcome where
  | pending
  | started
  | cached
  | succeeded
  | failed
  | skipped
deriving DecidableEq, Repr

/-- Scheduler state: outcome annotations plus the list of tasks actually
dispatched (handed to the runner or launched as continuous). -/
structure SchedulerState where
  statuses : List (String × TaskOutcome)
  dispatched : List String
deriving Repr

/-- Outcome recorded for a task, `pending` when not yet annotated. -/
def statusOf (statuses : List (String × TaskOutcome)) (t : String) :
    TaskOutcome :=
  (lookupKey t statuses).getD .pending

/-- Blocking dependencies of a task id in the graph. -/
def blockingDepsOf (tg : TaskGraph) (t : String) : List String :=
  (lookupKey t tg.dependencies).getD []

/-- Continuous dependencies of a task id in the graph. -/
def continuousDepsOf (tg : TaskGraph) (t : String) : List String :=
  (lookupKey t tg.continuousDependencies).getD []

/-- All dependency ids of a task, both edge kinds. -/
def allDepIds (tg : TaskGraph) (t : String) : List String :=
  blockingDepsOf tg t ++ continuousDepsOf tg t

/-- Is the outcome a settled non-failing one (`Cached`/`Succeeded`)? -/
def settledOk : TaskOutcome → Bool
  | .cached => true
  | .succeeded => true
  | _ => false

/-- Is the outcome failing (`Failed`) or `Skipped`? -/
def failedOrSkipped : TaskOutcome → Bool
  | .failed => true
  | .skipped => true
  | _ => false

/-- Does the outcome satisfy a continuous-dependency readiness check
(at least `Started`, spec §4.3)? -/
def continuousReady : TaskOutcome → Bool
  | .started => true
  | .cached => true
  | .succeeded => true
  | _ => false

/-- Modelled from the spec (§4.3): settle one task.  A task with a failed
or skipped blocking dependency is marked `Skipped` without dispatch; a
ready task (blocking dependencies settled non-failing, continuous
dependencies at least started) consults the cache, then executes —
continuous tasks reach `Started`; an unready or unknown id is left
untouched. -/
def scheduleStep (tg : TaskGraph) (cache exec : String → Bool)
    (s : SchedulerState) (t : String) : SchedulerState :=
  let deps := blockingDepsOf tg t
  let cont := continuousDepsOf tg t
  if deps.any fun d => failedOrSkipped (statusOf s.statuses d) then
    { s with statuses := (t, .skipped) :: s.statuses }
  else if (deps.all fun d => settledOk (statusOf s.statuses d)) &&
      (cont.all fun d => continuousReady (statusOf s.statuses d)) then
    match lookupKey t tg.tasks with
    | none => s
    | some task =>
      if task.continuous then
        { statuses := (t, .started) :: s.statuses,
          dispatched := t :: s.dispatched }
      else if cache t then
        { s with statuses := (t, .cached) :: s.statuses }
      else if exec t then
        { statuses := (t, .succeeded) :: s.statuses,
          dispatched := t :: s.dispatched }
      else
        { statuses := (t, .failed) :: s.statuses,
          dispatched := t :: s.dispatched }
  else s

/-- Modelled from the spec (§4.3, §5): sequential scheduling of the task
graph along a dispatch order that respects dependency settlement (the spec
leaves dispatch order among ready tasks unspecified; the embedding runs
one valid order).  `cache` answers cache-store consultations and `exec`
the runner's success. -/
def schedule (tg : TaskGraph) (cache exec : String → Bool)
    (order : List String) : SchedulerState :=
  order.foldl (scheduleStep tg cache exec) { statuses := [], dispatched := [] }

/-- Is `order` a valid dispatch order for the graph: every entry is a
known, not-yet-seen task all of whose dependencies (both kinds) were
dispatched earlier? -/
def validTopoAux (tg : TaskGraph) : List String → List String → Bool
  | _, [] => true
  | seen, t :: rest =>
    (lookupKey t tg.tasks).isSome && !(seen.contains t) &&
      ((allDepIds tg t).all fun d => seen.contains d) &&
      validTopoAux tg (t :: seen) rest

/-- A dispatch order covering the graph in dependency order. -/
def validTopo (tg : TaskGraph) (order : List String) : Bool :=
  validTopoAux tg [] order

/-- Byte serialization of a string list, JSON-style. -/
def serializeStrings (xs : List String) : String :=
  "[" ++ String.intercalate "," xs ++ "]"

/-- Byte serialization of one task record. -/
def serializeTask (t : Task) : String :=
  t.id ++ "|" ++ t.project ++ "|" ++ t.target ++ "|" ++
    t.configuration.getD "" ++ "|" ++ (if t.continuous then "1" else "0")

/-- Deterministic byte serialization of a task graph (spec §8
determinism: two builder runs must produce byte-identical serialized
graphs). -/
def serializeTaskGraph (tg : TaskGraph) : String :=
  "tasks:" ++
    String.intercalate ";" (tg.tasks.map fun kv => kv.1 ++ "=" ++ serializeTask kv.2) ++
  "|dependencies:" ++
    String.intercalate ";" (tg.dependencies.map fun kv =>
      kv.1 ++ "=" ++ serializeStrings kv.2) ++
  "|continuousDependencies:" ++
    String.intercalate ";" (tg.continuousDependencies.map fun kv =>
      kv.1 ++ "=" ++ serializeStrings kv.2) ++
  "|roots:" ++ serializeStrings tg.roots

/-- Target configuration used by the worked example of spec §8. -/
def exampleTarget (deps : List DependencyRef) : TargetConfiguration :=
  { executor := "nx:run-commands", dependsOn := deps, inputs := [],
    configurations := [], defaultConfiguration := none, continuous := false }

/-- The worked example project graph of spec §8: nodes `app` and `lib`,
one static edge `app → lib`, targets `app:build` (`dependsOn ["^build"]`)
and `lib:build`. -/
def exampleProjectGraph : ProjectGraph :=
  { nodes :=
      [("app", { root := "apps/app",
                 targets := [("build", exampleTarget [.upstream "build"])] }),
       ("lib", { root := "libs/lib",
                 targets := [("build", exampleTarget [])] })],
    dependencies := [("app", [{ target := "lib", depType := .static }])] }

/-- Workspace configuration with no settings, used by concrete instances. -/
def emptyNxJson : NxJsonConfiguration := { settings := [] }

/-- A project whose `build` and `lint` targets depend on each other
through `self:` references — a dependency cycle. -/
def cycleProjectGraph : ProjectGraph :=
  { nodes :=
      [("aaa", { root := "a",
                 targets := [("build", exampleTarget [.selfTarget "lint"]),
                             ("lint", exampleTarget [.selfTarget "build"])] })],
    dependencies := [] }

/-- The cycle path reported for `cycleProjectGraph` when requesting
`aaa:build`. -/
def cycleProjectGraphPath : List TaskSpec :=
  [⟨"aaa", "build", none⟩, ⟨"aaa", "lint", none⟩, ⟨"aaa", "build", none⟩]

/-- Replace the content stored at `path` in the file map with `c` (the
workspace after editing one file in place). -/
def updateContent (files : List (String × String)) (path c : String) :
    List (String × String) :=
  files.map fun pc => if pc.1 = path then (pc.1, c) else pc

/-- One `dependsOn` expansion step between task identities: `b` is one of
the expanded dependency tasks of `a`. -/
@[reducible]
def cycleRel (pg : ProjectGraph) (cfg : Option String)
    (a b : TaskSpec) : Prop :=
  b ∈ specDeps pg cfg a

/-- Task identities directly requested by an invocation: the resolved
identity of a requested `(project, target)` tuple. -/
def RequestedSpec (pg : ProjectGraph) (cfg : Option String)
    (reqs : List (String × String)) (s : TaskSpec) : Prop :=
  ∃ pt ∈ reqs, ∃ b, depSpec pg cfg pt.1 pt.2 = some (s, b)

/-- The expanded tasks of an invocation: the closure of the requested
identities under `dependsOn` expansion. -/
def ExpandedFrom (pg : ProjectGraph) (cfg : Option String)
    (reqs : List (String × String)) (s : TaskSpec) : Prop :=
  ∃ s₀, RequestedSpec pg cfg reqs s₀ ∧
    Relation.ReflTransGen (cycleRel pg cfg) s₀ s

/-- The invocation's `dependsOn` relation induces a cycle among its
expanded tasks. -/
def InducesCycle (pg : ProjectGraph) (cfg : Option String)
    (reqs : List (String × String)) : Prop :=
  ∃ s, ExpandedFrom pg cfg reqs s ∧
    Relation.TransGen (cycleRel pg cfg) s s

/-- A reported cycle path is genuine: at least two entries, it starts and
ends at the repeated task identity, and consecutive entries are linked by
`dependsOn` expansion. -/
def GenuineCycle (pg : ProjectGraph) (cfg : Option String)
    (path : List TaskSpec) : Prop :=
  2 ≤ path.length ∧ path.head? = path.getLast? ∧
    List.Chain' (cycleRel pg cfg) path

/-- Invariant of the builder memo (newest entry first): every entry
records exactly the canonical dependency split of its task identity, all
recorded dependencies appear in strictly older entries, and keys are
distinct — the reversed memo is a topological order. -/
inductive WellFormed (pg : ProjectGraph) (cfg : Option String) :
    Memo → Prop where
  | nil : WellFormed pg cfg []
  | cons (s : TaskSpec) (e : TaskEntry) (rest : Memo) :
      e.blocking = blockingOf pg cfg s →
      e.contDeps = continuousOf pg cfg s →
      (∀ d ∈ specDeps pg cfg s, d ∈ memoKeys rest) →
      s ∉ memoKeys rest →
      WellFormed pg cfg rest →
      WellFormed pg cfg ((s, e) :: rest)

/-- A target with named configurations and no default, used by the
configuration-preemption counterexample. -/
def preemptTarget (deps : List DependencyRef) (cfgs : List String) :
    TargetConfiguration :=
  { executor := "x", dependsOn := deps, inputs := [], configurations := cfgs,
    defaultConfiguration := none, continuous := false }

/-- A workspace holding both a dependency cycle (`aaa:build` ↔ `aaa:lint`,
each declaring configuration `prod`) and a project `bbb` whose `build` has
neither the requested configuration nor a default. -/
def preemptProjectGraph : ProjectGraph :=
  { nodes :=
      [("bbb", { root := "b", targets := [("build", preemptTarget [] [])] }),
       ("aaa", { root := "a",
                 targets :=
                   [("build", preemptTarget [.selfTarget "lint"] ["prod"]),
                    ("lint", preemptTarget [.selfTarget "build"] ["prod"])] })],
    dependencies := [] }

/-- A blocking dependency edge in the task graph: `t` depends on `d`. -/
def blockingEdge (tg : TaskGraph) (t d : String) : Prop :=
  d ∈ blockingDepsOf tg t

/-- A dependency edge of either kind: `t` depends on `d` through
`dependencies` or `continuousDependencies`. -/
def anyDepEdge (tg : TaskGraph) (t d : String) : Prop :=
  d ∈ allDepIds tg t

/-- `t` is a transitive dependent of `d` via blocking dependencies (the
failure-propagation relation of spec §4.3). -/
def DependsOnBlocking (tg : TaskGraph) (t d : String) : Prop :=
  Relation.TransGen (blockingEdge tg) t d

/-- `t` transitively depends on `d` through edges of either kind (the
"dependency path" relation between tasks). -/
def DependsOnAny (tg : TaskGraph) (t d : String) : Prop :=
  Relation.TransGen (anyDepEdge tg) t d

/-- Invariant of the sequential scheduler run with `X` the only failing
execution: dispatched and annotated tasks were already processed, `Failed`
only ever hits `X`, `Started` only hits continuous tasks, every `Skipped`
task is a transitive blocking dependent of `X` and was never dispatched,
and every processed task with no dependency path to `X` settles
non-failing. -/
def SchedInv (tg : TaskGraph) (X : String) (seen : List String)
    (s : SchedulerState) : Prop :=
  (∀ t, t ∈ s.dispatched → t ∈ seen) ∧
  (∀ t, statusOf s.statuses t ≠ .pending → t ∈ seen) ∧
  (∀ t, statusOf s.statuses t = .failed → t = X) ∧
  (∀ t, statusOf s.statuses t = .started →
    ∃ task, lookupKey t tg.tasks = some task ∧ task.continuous = true) ∧
  (∀ t, statusOf s.statuses t = .skipped →
    DependsOnBlocking tg t X ∧ t ∉ s.dispatched) ∧
  (∀ t, t ∈ seen → t ≠ X → ¬ DependsOnAny tg t X →
    statusOf s.statuses t = .cached ∨ statusOf s.statuses t = .succeeded ∨
      statusOf s.statuses t = .started)

/-- Concrete scheduling scenario: `zzz:build` depends on `xxx:build`;
`yyy:build` is unrelated to both. -/
def isolationTaskGraph : TaskGraph :=
  { tasks :=
      [("xxx:build",
        { id := "xxx:build", project := "xxx", target := "build",
          configuration := none, continuous := false }),
       ("zzz:build",
        { id := "zzz:build", project := "zzz", target := "build",
          configuration := none, continuous := false }),
       ("yyy:build",
        { id := "yyy:build", project := "yyy", target := "build",
          configuration := none, continuous := false })],
    dependencies :=
      [("xxx:build", []), ("zzz:build", ["xxx:build"]), ("yyy:build", [])],
    continuousDependencies :=
      [("xxx:build", []), ("zzz:build", []), ("yyy:build", [])],
    roots := ["xxx:build", "yyy:build"] }

end Nx

deriving instance DecidableEq for Except

namespace Nx

theorem lookupKey_cons {β : Type} (k k' : String) (v : β) (l : List (String × β)) :
    lookupKey k ((k', v) :: l) = if k' = k then some v else lookupKey k l := rfl

theorem mem_of_lookupKey {β : Type} {k : String} {v : β} :
    ∀ {l : List (String × β)}, lookupKey k l = some v → (k, v) ∈ l := by
  intro l
  induction l with
  | nil => intro h; simp [lookupKey] at h
  | cons p rest ih =>
    intro h
    rw [show p = (p.1, p.2) from rfl, lookupKey_cons] at h
    by_cases hk : p.1 = k
    · simp [hk] at h
      subst hk
      subst h
      exact List.mem_cons_self _ _
    · simp [hk] at h
      exact List.mem_cons_of_mem _ (ih h)

theorem getPlansGo_map_fst (planner : HashPlanner) (tg : TaskGraph) :
    ∀ (ids : List String) (m : List (String × Digest)),
      (getPlansGo planner tg ids m).map Prod.fst = ids := by
  intro ids
  induction ids with
  | nil => intro m; rfl
  | cons tid rest ih => intro m; simp [getPlansGo, ih]

theorem getPlansGo_lookup (planner : HashPlanner) (tg : TaskGraph)
    {tid : String} :
    ∀ {ids : List String} (m : List (String × Digest)), tid ∈ ids →
      ∃ m', lookupKey tid (getPlansGo planner tg ids m) =
        some (taskPlan planner tg m' tid) := by
  intro ids
  induction ids with
  | nil => intro m h; simp at h
  | cons tid' rest ih =>
    intro m h
    by_cases heq : tid' = tid
    · subst heq
      exact ⟨m, by simp [getPlansGo, lookupKey_cons]⟩
    · rcases List.mem_cons.mp h with h' | h'
      · exact absurd h'.symm heq
      · rcases ih ((tid', (taskPlan planner tg m tid').digest) :: m) h' with ⟨m', hm'⟩
        exact ⟨m', by simp [getPlansGo, lookupKey_cons, heq, hm']⟩

/-- C10: `hashObject` is total on nullish input: `null` and `undefined`
coalesce to the empty object, so `hashObject` hashes the empty key list
and `hashObject(null)`, `hashObject(undefined)` and `hashObject({})` all
return the digest of the empty part list. -/
theorem hashObject_total_on_nullish :
    hashObject JsObj.null = hashObject (.obj []) ∧
    hashObject JsObj.undef = hashObject (.obj []) ∧
    hashObject JsObj.null = nativeHashArray [] :=
  ⟨rfl, rfl, rfl⟩

/-- C7: on the worked example (nodes `app`, `lib`, static edge
`app → lib`, `app:build` depending on `^build`), requesting target `build`
for project `app` yields tasks `lib:build` and `app:build`,
`dependencies = {app:build: [lib:build], lib:build: []}` and
`roots = [lib:build]` — the tasks whose blocking-dependency list is
empty. -/
theorem createTaskGraph_worked_example :
    createTaskGraph exampleProjectGraph ["app"] ["build"] none =
      .ok { tasks :=
              [("lib:build",
                { id := "lib:build", project := "lib", target := "build",
                  configuration := none, continuous := false }),
               ("app:build",
                { id := "app:build", project := "app", target := "build",
                  configuration := none, continuous := false })],
            dependencies := [("lib:build", []), ("app:build", ["lib:build"])],
            continuousDependencies := [("lib:build", []), ("app:build", [])],
            roots := ["lib:build"] } ∧
    (taskGraphOfMemo []).roots = [] := by
  exact ⟨by decide, rfl⟩

/-- C1: when task-graph construction throws, the caller catches the error
and responds with the empty task graph, an empty plans map and the thrown
error's message (non-null); on every non-throwing run the `error` field is
null. -/
theorem response_error_contract :
    ∀ (pg : ProjectGraph) (nx : NxJsonConfiguration) (tn : List String)
      (pn : Option (List String)) (cfg : Option String)
      (files : List (String × String)),
    (∀ e, createTaskGraph pg (projectsToUse pg tn pn) tn cfg = .error e →
      createTaskGraphForTargetsAndProjects pg nx tn pn cfg files =
        { taskGraph := emptyTaskGraph, plans := [], error := some e.message }) ∧
    (∀ tg, createTaskGraph pg (projectsToUse pg tn pn) tn cfg = .ok tg →
      (createTaskGraphForTargetsAndProjects pg nx tn pn cfg files).error =
        none) := by
  intro pg nx tn pn cfg files
  constructor
  · intro e he
    simp [createTaskGraphForTargetsAndProjects, he]
  · intro tg htg
    simp [createTaskGraphForTargetsAndProjects, htg]

/-- Witness for C1 at concrete inputs: a cyclic workspace produces the
empty-graph error response, and a non-throwing run has a null error. -/
theorem response_error_contract_witness :
    createTaskGraphForTargetsAndProjects cycleProjectGraph emptyNxJson
        ["build"] (some ["aaa"]) none [] =
      { taskGraph := emptyTaskGraph, plans := [],
        error := some (GraphError.cycleDetected cycleProjectGraphPath).message } ∧
    (createTaskGraphForTargetsAndProjects exampleProjectGraph emptyNxJson
        ["build"] (some ["app"]) none []).error = none :=
  ⟨(response_error_contract cycleProjectGraph emptyNxJson ["build"]
      (some ["aaa"]) none []).1 (.cycleDetected cycleProjectGraphPath)
      (by decide),
   (response_error_contract exampleProjectGraph emptyNxJson ["build"]
      (some ["app"]) none []).2
      { tasks :=
          [("lib:build",
            { id := "lib:build", project := "lib", target := "build",
              configuration := none, continuous := false }),
           ("app:build",
            { id := "app:build", project := "app", target := "build",
              configuration := none, continuous := false })],
        dependencies := [("lib:build", []), ("app:build", ["lib:build"])],
        continuousDependencies := [("lib:build", []), ("app:build", [])],
        roots := ["lib:build"] } (by decide)⟩

/-- C5: on every successful run the response carries the built task graph
and exactly one hash plan per task — the plans map's key list equals the
task map's key list. -/
theorem plans_domain_eq_tasks :
    ∀ (pg : ProjectGraph) (nx : NxJsonConfiguration) (tn : List String)
      (pn : Option (List String)) (cfg : Option String)
      (files : List (String × String)) (tg : TaskGraph),
    createTaskGraph pg (projectsToUse pg tn pn) tn cfg = .ok tg →
    (createTaskGraphForTargetsAndProjects pg nx tn pn cfg files).taskGraph = tg ∧
    (createTaskGraphForTargetsAndProjects pg nx tn pn cfg files).plans.map
        Prod.fst = tg.tasks.map Prod.fst := by
  intro pg nx tn pn cfg files tg htg
  have hresp : createTaskGraphForTargetsAndProjects pg nx tn pn cfg files =
      { taskGraph := tg,
        plans := if 0 < (tg.tasks.map Prod.fst).length then
            HashPlanner.getPlans
              { nxJson := nx,
                projectGraph := transferProjectGraph
                  (transformProjectGraphForRust pg),
                files := files } (tg.tasks.map Prod.fst) tg
          else [],
        error := none } := by
    simp [createTaskGraphForTargetsAndProjects, htg]
  rw [hresp]
  refine ⟨rfl, ?_⟩
  by_cases hlen : 0 < (tg.tasks.map Prod.fst).length
  · simp only [hlen, if_pos]
    exact getPlansGo_map_fst _ _ _ _
  · simp only [hlen, if_neg, not_false_iff]
    have : tg.tasks.map Prod.fst = [] := by
      cases hmap : tg.tasks.map Prod.fst with
      | nil => rfl
      | cons a l => rw [hmap] at hlen; simp at hlen
    simp [this]

/-- Witness for C5 on the worked example: two tasks, two plans, same
keys. -/
theorem plans_domain_eq_tasks_witness :
    (createTaskGraphForTargetsAndProjects exampleProjectGraph emptyNxJson
        ["build"] (some ["app"]) none []).plans.map Prod.fst =
      ({ tasks :=
           [("lib:build",
             { id := "lib:build", project := "lib", target := "build",
               configuration := none, continuous := false }),
            ("app:build",
             { id := "app:build", project := "app", target := "build",
               configuration := none, continuous := false })],
         dependencies := [("lib:build", []), ("app:build", ["lib:build"])],
         continuousDependencies := [("lib:build", []), ("app:build", [])],
         roots := ["lib:build"] } : TaskGraph).tasks.map Prod.fst :=
  (plans_domain_eq_tasks exampleProjectGraph emptyNxJson ["build"]
    (some ["app"]) none []
    { tasks :=
        [("lib:build",
          { id := "lib:build", project := "lib", target := "build",
            configuration := none, continuous := false }),
         ("app:build",
          { id := "app:build", project := "app", target := "build",
            configuration := none, continuous := false })],
      dependencies := [("lib:build", []), ("app:build", ["lib:build"])],
      continuousDependencies := [("lib:build", []), ("app:build", [])],
      roots := ["lib:build"] } (by decide)).2

/-- C6: the pipeline is deterministic as a two-run property — for equal
inputs, two builder runs produce byte-identical serialized task graphs
and two planner runs produce identical plans (hence digests) for every
task. -/
theorem two_run_determinism :
    ∀ (pg₁ pg₂ : ProjectGraph) (nx₁ nx₂ : NxJsonConfiguration)
      (tn₁ tn₂ : List String) (pn₁ pn₂ : Option (List String))
      (cfg₁ cfg₂ : Option String) (f₁ f₂ : List (String × String))
      (projects : List String),
    pg₁ = pg₂ → nx₁ = nx₂ → tn₁ = tn₂ → pn₁ = pn₂ → cfg₁ = cfg₂ → f₁ = f₂ →
    (createTaskGraph pg₁ projects tn₁ cfg₁).map serializeTaskGraph =
      (createTaskGraph pg₂ projects tn₂ cfg₂).map serializeTaskGraph ∧
    serializeTaskGraph
        (createTaskGraphForTargetsAndProjects pg₁ nx₁ tn₁ pn₁ cfg₁ f₁).taskGraph =
      serializeTaskGraph
        (createTaskGraphForTargetsAndProjects pg₂ nx₂ tn₂ pn₂ cfg₂ f₂).taskGraph ∧
    (createTaskGraphForTargetsAndProjects pg₁ nx₁ tn₁ pn₁ cfg₁ f₁).plans =
      (createTaskGraphForTargetsAndProjects pg₂ nx₂ tn₂ pn₂ cfg₂ f₂).plans := by
  intro pg₁ pg₂ nx₁ nx₂ tn₁ tn₂ pn₁ pn₂ cfg₁ cfg₂ f₁ f₂ projects
  intro h₁ h₂ h₃ h₄ h₅ h₆
  subst h₁; subst h₂; subst h₃; subst h₄; subst h₅; subst h₆
  exact ⟨rfl, rfl, rfl⟩

/-- Witness for C6: two runs on the worked example agree byte-for-byte. -/
theorem two_run_determinism_witness :
    serializeTaskGraph
        (createTaskGraphForTargetsAndProjects exampleProjectGraph emptyNxJson
          ["build"] none none []).taskGraph =
      serializeTaskGraph
        (createTaskGraphForTargetsAndProjects exampleProjectGraph emptyNxJson
          ["build"] none none []).taskGraph :=
  (two_run_determinism exampleProjectGraph exampleProjectGraph emptyNxJson
    emptyNxJson ["build"] ["build"] none none none none [] [] ["app"]
    rfl rfl rfl rfl rfl rfl).2.1

/-- C9: with `projectNames` omitted or empty, the request set is exactly
the projects whose targets map defines at least one requested target, and
the response equals the one for that explicit project list. -/
theorem default_project_selection :
    ∀ (pg : ProjectGraph) (tn : List String) (pn : Option (List String))
      (nx : NxJsonConfiguration) (cfg : Option String)
      (files : List (String × String)),
    pn = none ∨ pn = some [] →
    projectsToUse pg tn pn = projectsWithAnyTarget pg tn ∧
    (∀ p, p ∈ projectsToUse pg tn pn ↔
      ∃ node, (p, node) ∈ pg.nodes ∧
        ∃ t ∈ tn, (lookupKey t node.targets).isSome) ∧
    createTaskGraphForTargetsAndProjects pg nx tn pn cfg files =
      createTaskGraphForTargetsAndProjects pg nx tn
        (some (projectsWithAnyTarget pg tn)) cfg files := by
  intro pg tn pn nx cfg files hpn
  have hsel : projectsToUse pg tn pn = projectsWithAnyTarget pg tn := by
    rcases hpn with h | h <;> subst h <;> simp [projectsToUse]
  have hsel' : projectsToUse pg tn (some (projectsWithAnyTarget pg tn)) =
      projectsWithAnyTarget pg tn := by
    simp only [projectsToUse]
    by_cases h : 0 < (projectsWithAnyTarget pg tn).length
    · simp [h]
    · simp only [h, if_neg, not_false_iff]
  refine ⟨hsel, ?_, ?_⟩
  · intro p
    rw [hsel]
    constructor
    · intro hp
      rcases List.mem_map.mp hp with ⟨pn', hmem, hfst⟩
      rcases List.mem_filter.mp hmem with ⟨hnodes, hpred⟩
      rcases List.any_eq_true.mp hpred with ⟨t, ht, hsome⟩
      exact ⟨pn'.2, by rw [← hfst]; exact hnodes, t, ht, by
        simpa using hsome⟩
    · rintro ⟨node, hnode, t, ht, hsome⟩
      refine List.mem_map.mpr ⟨(p, node), List.mem_filter.mpr ⟨hnode, ?_⟩, rfl⟩
      exact List.any_eq_true.mpr ⟨t, ht, by simpa using hsome⟩
  · simp [createTaskGraphForTargetsAndProjects, hsel, hsel']

theorem charListLe_total : ∀ as bs, charListLe as bs = true ∨ charListLe bs as = true := by
  intro as
  induction as with
  | nil => intro bs; left; rfl
  | cons a as' ih =>
    intro bs
    cases bs with
    | nil => right; rfl
    | cons b bs' =>
      by_cases hab : a.toNat < b.toNat
      · left; simp [charListLe, hab]
      · by_cases hba : b.toNat < a.toNat
        · right; simp [charListLe, hba]
        · rcases ih bs' with h | h
          · left; simp [charListLe, hab, hba, h]
          · right; simp [charListLe, hab, hba, h]

theorem charListLe_trans : ∀ as bs cs, charListLe as bs = true →
    charListLe bs cs = true → charListLe as cs = true := by
  intro as
  induction as with
  | nil => intro bs cs _ _; rfl
  | cons a as' ih =>
    intro bs cs h₁ h₂
    cases bs with
    | nil => simp [charListLe] at h₁
    | cons b bs' =>
      cases cs with
      | nil => simp [charListLe] at h₂
      | cons c cs' =>
        by_cases hab : a.toNat < b.toNat
        · by_cases hbc : b.toNat < c.toNat
          · simp [charListLe, Nat.lt_trans hab hbc]
          · by_cases hcb : c.toNat < b.toNat
            · simp [charListLe, hbc, hcb] at h₂
            · have hbceq : b.toNat = c.toNat := by omega
              simp [charListLe, hbceq ▸ hab]
        · by_cases hba : b.toNat < a.toNat
          · simp [charListLe, hab, hba] at h₁
          · have habeq : a.toNat = b.toNat := by omega
            by_cases hbc : b.toNat < c.toNat
            · simp [charListLe, habeq ▸ hbc]
            · by_cases hcb : c.toNat < b.toNat
              · simp [charListLe, hbc, hcb] at h₂
              · have hbceq : b.toNat = c.toNat := by omega
                simp [charListLe, hab, hba] at h₁
                simp [charListLe, hbc, hcb] at h₂
                have hac : ¬ a.toNat < c.toNat := by omega
                have hca : ¬ c.toNat < a.toNat := by omega
                simp [charListLe, hac, hca]
                exact ih bs' cs' h₁ h₂

theorem charListLe_antisymm : ∀ as bs, charListLe as bs = true →
    charListLe bs as = true → as = bs := by
  intro as
  induction as with
  | nil =>
    intro bs _ h₂
    cases bs with
    | nil => rfl
    | cons b bs' => simp [charListLe] at h₂
  | cons a as' ih =>
    intro bs h₁ h₂
    cases bs with
    | nil => simp [charListLe] at h₁
    | cons b bs' =>
      by_cases hab : a.toNat < b.toNat
      · exfalso
        simp [charListLe, hab, show ¬ b.toNat < a.toNat by omega] at h₂
      · by_cases hba : b.toNat < a.toNat
        · exfalso
          simp [charListLe, hab, hba] at h₁
        · have hn : a.toNat = b.toNat := by omega
          have heq : a = b := Char.ext (UInt32.ext hn)
          subst heq
          simp [charListLe, hab, hba] at h₁ h₂
          rw [ih bs' h₁ h₂]

theorem strLeTotal : ∀ a b : String, strLe a b = true ∨ strLe b a = true :=
  fun a b => charListLe_total a.data b.data

theorem strLeTrans : ∀ a b c : String, strLe a b = true → strLe b c = true →
    strLe a c = true :=
  fun a b c h₁ h₂ => charListLe_trans a.data b.data c.data h₁ h₂

theorem strLeAntisymm : ∀ a b : String, strLe a b = true → strLe b a = true →
    a = b :=
  fun a b h₁ h₂ => String.ext (charListLe_antisymm a.data b.data h₁ h₂)

theorem keysOfMap_cons {β : Type} (x : String × β) (l : List (String × β)) :
    keysOfMap (x :: l) = x.1 :: keysOfMap l := rfl

theorem lookupKey_eq_none_iff {β : Type} {k : String} :
    ∀ {l : List (String × β)}, lookupKey k l = none ↔ k ∉ keysOfMap l := by
  intro l
  induction l with
  | nil => simp [lookupKey, keysOfMap]
  | cons x rest ih =>
    rw [show x = (x.1, x.2) from rfl, lookupKey_cons]
    by_cases hk : x.1 = k
    · simp [hk, keysOfMap_cons]
    · rw [if_neg hk, keysOfMap_cons]
      simp only [List.mem_cons, not_or]
      constructor
      · intro h
        exact ⟨fun he => hk he.symm, ih.mp h⟩
      · intro h
        exact ih.mpr h.2

theorem lookupKey_eq_some_iff_mem {β : Type} {k : String} {v : β} :
    ∀ {l : List (String × β)}, (keysOfMap l).Nodup →
      (lookupKey k l = some v ↔ (k, v) ∈ l) := by
  intro l
  induction l with
  | nil => intro _; simp [lookupKey]
  | cons x rest ih =>
    intro hnd
    rw [keysOfMap_cons] at hnd
    rw [show x = (x.1, x.2) from rfl, lookupKey_cons]
    by_cases hk : x.1 = k
    · subst hk
      have hnotin : (x.1, v) ∉ rest := fun hmem =>
        (List.nodup_cons.mp hnd).1 (List.mem_map.mpr ⟨(x.1, v), hmem, rfl⟩)
      rw [if_pos rfl]
      constructor
      · intro h
        injection h with h'
        exact List.mem_cons.mpr (Or.inl (by rw [h']))
      · intro h
        rcases List.mem_cons.mp h with h' | h'
        · have hv : v = x.2 := congrArg Prod.snd h'
          rw [hv]
        · exact absurd h' hnotin
    · rw [if_neg hk]
      rw [ih (List.nodup_cons.mp hnd).2]
      constructor
      · intro h; exact List.mem_cons_of_mem _ h
      · intro h
        rcases List.mem_cons.mp h with h' | h'
        · exact absurd (congrArg Prod.fst h').symm hk
        · exact h'

theorem lookupKey_perm {β : Type} {l₁ l₂ : List (String × β)}
    (hp : l₁.Perm l₂) (hnd : (keysOfMap l₁).Nodup) (k : String) :
    lookupKey k l₁ = lookupKey k l₂ := by
  have hnd₂ : (keysOfMap l₂).Nodup := ((hp.map Prod.fst).nodup_iff).mp hnd
  cases hv : lookupKey k l₁ with
  | some v =>
    have hmem : (k, v) ∈ l₁ := (lookupKey_eq_some_iff_mem hnd).mp hv
    exact ((lookupKey_eq_some_iff_mem hnd₂).mpr (hp.mem_iff.mp hmem)).symm
  | none =>
    have hk : k ∉ keysOfMap l₁ := lookupKey_eq_none_iff.mp hv
    have hk₂ : k ∉ keysOfMap l₂ := fun h =>
      hk ((hp.map Prod.fst).mem_iff.mpr h)
    exact (lookupKey_eq_none_iff.mpr hk₂).symm

/-- C4: `hashObject` is insensitive to key insertion order — for two
objects with the same key-to-value mapping (a permutation of the same
entries, JS object keys being unique), the sorted key list and hence the
part list and the digest coincide. -/
theorem hashObject_key_order_independent :
    ∀ (f₁ f₂ : List (String × JsVal)), f₁.Perm f₂ →
    (keysOfMap f₁).Nodup →
    hashObject (.obj f₁) = hashObject (.obj f₂) := by
  intro f₁ f₂ hp hnd
  have instTot : IsTotal String (fun a b => strLe a b = true) := ⟨strLeTotal⟩
  have instTrans : IsTrans String (fun a b => strLe a b = true) := ⟨strLeTrans⟩
  have instAnti : IsAntisymm String (fun a b => strLe a b = true) := ⟨strLeAntisymm⟩
  have hkeys : (keysOfMap f₁).insertionSort (fun a b => strLe a b = true) =
      (keysOfMap f₂).insertionSort (fun a b => strLe a b = true) := by
    refine List.eq_of_perm_of_sorted ?_
      (List.sorted_insertionSort _ _) (List.sorted_insertionSort _ _)
    exact (List.perm_insertionSort _ _).trans
      ((hp.map Prod.fst).trans (List.perm_insertionSort _ _).symm)
  simp only [hashObject, JsObj.fieldsOrEmpty]
  rw [hkeys]
  rw [List.flatMap_def, List.flatMap_def]
  congr 1
  congr 1
  apply List.map_congr_left
  intro k _
  rw [lookupKey_perm hp hnd k]

theorem fragmentDigest_inj : ∀ f g : HashFragment,
    fragmentDigest f = fragmentDigest g → f = g := by
  intro f g h
  cases f with
  | mk fk fkey fv =>
    cases g with
    | mk gk gkey gv =>
      simp only [fragmentDigest] at h
      injection h with h₁ h₂
      injection h₂ with h₃ h₄
      injection h₃ with h₅
      injection h₄ with h₆ _
      simp [h₁, h₅, h₆]

theorem map_fragmentDigest_inj : ∀ l₁ l₂ : List HashFragment,
    l₁.map fragmentDigest = l₂.map fragmentDigest → l₁ = l₂ := by
  intro l₁
  induction l₁ with
  | nil =>
    intro l₂ h
    cases l₂ with
    | nil => rfl
    | cons g gs => simp at h
  | cons f fs ih =>
    intro l₂ h
    cases l₂ with
    | nil => simp at h
    | cons g gs =>
      simp only [List.map_cons, List.cons.injEq] at h
      rw [fragmentDigest_inj f g h.1, ih gs h.2]

theorem planDigest_inj : ∀ l₁ l₂ : List HashFragment,
    planDigest l₁ = planDigest l₂ → l₁ = l₂ := by
  intro l₁ l₂ h
  simp only [planDigest] at h
  injection h with _ h₂
  exact map_fragmentDigest_inj _ _ h₂

theorem planFragments_some (planner : HashPlanner) (tg : TaskGraph)
    (digests : List (String × Digest)) (tid : String) {task : Task}
    {node : ProjectNode} {tc : TargetConfiguration}
    (h₁ : lookupKey tid tg.tasks = some task)
    (h₂ : lookupKey task.project planner.projectGraph.nodes = some node)
    (h₃ : lookupKey task.target node.targets = some tc) :
    planFragments planner tg digests tid =
      List.insertionSort (fun a b => fragLe a b = true)
        (((planner.files.filter fun pc =>
            matchesInputs node.root tc.inputs pc.1).map fun pc =>
          HashFragment.mk "file" pc.1 (hash_file_harmonized pc.1 pc.2 true)) ++
         ([HashFragment.mk "workspace" "nxJson"
             (hashObject (.obj planner.nxJson.settings))] ++
          ((((lookupKey tid tg.dependencies).getD []).map fun d =>
              HashFragment.mk "dep" d
                ((lookupKey d digests).getD (.atom "missing"))) ++
           [HashFragment.mk "task" tid
              (.node "task-identity"
                [.atom task.project, .atom task.target,
                 .atom (task.configuration.getD ""), .atom tc.executor])]))) := by
  simp [planFragments, h₁, h₂, h₃]

theorem mem_planFragments_file (planner : HashPlanner) (tg : TaskGraph)
    (digests : List (String × Digest)) (tid : String) {task : Task}
    {node : ProjectNode} {tc : TargetConfiguration}
    (h₁ : lookupKey tid tg.tasks = some task)
    (h₂ : lookupKey task.project planner.projectGraph.nodes = some node)
    (h₃ : lookupKey task.target node.targets = some tc)
    {f : HashFragment} (hmem : f ∈ planFragments planner tg digests tid)
    (hkind : f.kind = "file") :
    ∃ pc, pc ∈ planner.files ∧
      matchesInputs node.root tc.inputs pc.1 = true ∧
      f = HashFragment.mk "file" pc.1 (hash_file_harmonized pc.1 pc.2 true) := by
  rw [planFragments_some planner tg digests tid h₁ h₂ h₃] at hmem
  have hmem' := (List.perm_insertionSort
    (fun a b => fragLe a b = true) _).mem_iff.mp hmem
  rcases List.mem_append.mp hmem' with hfile | hrest
  · rcases List.mem_map.mp hfile with ⟨pc, hpc, hf⟩
    rcases List.mem_filter.mp hpc with ⟨hin, hmatch⟩
    exact ⟨pc, hin, hmatch, hf.symm⟩
  · exfalso
    rcases List.mem_append.mp hrest with hws | hrest'
    · rcases List.mem_singleton.mp hws with hf
      rw [hf] at hkind
      simp at hkind
    · rcases List.mem_append.mp hrest' with hdep | hid
      · rcases List.mem_map.mp hdep with ⟨d, _, hf⟩
        rw [← hf] at hkind
        simp at hkind
      · rcases List.mem_singleton.mp hid with hf
        rw [hf] at hkind
        simp at hkind

theorem file_frag_mem_planFragments (planner : HashPlanner) (tg : TaskGraph)
    (digests : List (String × Digest)) (tid : String) {task : Task}
    {node : ProjectNode} {tc : TargetConfiguration}
    (h₁ : lookupKey tid tg.tasks = some task)
    (h₂ : lookupKey task.project planner.projectGraph.nodes = some node)
    (h₃ : lookupKey task.target node.targets = some tc)
    {path c : String} (hin : (path, c) ∈ planner.files)
    (hmatch : matchesInputs node.root tc.inputs path = true) :
    HashFragment.mk "file" path (hash_file_harmonized path c true) ∈
      planFragments planner tg digests tid := by
  rw [planFragments_some planner tg digests tid h₁ h₂ h₃]
  refine (List.perm_insertionSort
    (fun a b => fragLe a b = true) _).mem_iff.mpr ?_
  refine List.mem_append.mpr (Or.inl ?_)
  exact List.mem_map.mpr ⟨(path, c), List.mem_filter.mpr ⟨hin, hmatch⟩, rfl⟩

theorem mem_updateContent {files : List (String × String)}
    {path c₂ p c' : String} :
    (p, c') ∈ updateContent files path c₂ →
      (p = path ∧ c' = c₂) ∨ ((p, c') ∈ files ∧ p ≠ path) := by
  intro h
  rcases List.mem_map.mp h with ⟨pc, hpc, hf⟩
  by_cases hp : pc.1 = path
  · rw [if_pos hp] at hf
    left
    exact ⟨(congrArg Prod.fst hf).symm.trans hp, (congrArg Prod.snd hf).symm⟩
  · rw [if_neg hp] at hf
    right
    rw [hf] at hpc hp
    exact ⟨hpc, hp⟩

theorem taskPlan_file_sensitive (nx : NxJsonConfiguration)
    (pg : ProjectGraph) (files : List (String × String))
    (path c₁ c₂ : String) (tg : TaskGraph) (tid : String)
    (m₁ m₂ : List (String × Digest)) {task : Task} {node : ProjectNode}
    {tc : TargetConfiguration}
    (h₁ : lookupKey tid tg.tasks = some task)
    (h₂ : lookupKey task.project pg.nodes = some node)
    (h₃ : lookupKey task.target node.targets = some tc)
    (h₄ : lookupKey path files = some c₁)
    (h₅ : matchesInputs node.root tc.inputs path = true)
    (h₆ : c₁ ≠ c₂) :
    taskPlan { nxJson := nx, projectGraph := pg, files := files } tg m₁ tid ≠
      taskPlan { nxJson := nx, projectGraph := pg,
                 files := updateContent files path c₂ } tg m₂ tid := by
  intro heq
  have hfrags : planFragments
      { nxJson := nx, projectGraph := pg, files := files } tg m₁ tid =
      planFragments { nxJson := nx, projectGraph := pg,
                      files := updateContent files path c₂ } tg m₂ tid := by
    have hd := congrArg HashPlan.digest heq
    simp only [taskPlan] at hd
    exact planDigest_inj _ _ hd
  have hmem₁ : HashFragment.mk "file" path
      (hash_file_harmonized path c₁ true) ∈ planFragments
      { nxJson := nx, projectGraph := pg, files := files } tg m₁ tid :=
    file_frag_mem_planFragments _ tg m₁ tid h₁ h₂ h₃
      (mem_of_lookupKey h₄) h₅
  rw [hfrags] at hmem₁
  rcases mem_planFragments_file _ tg m₂ tid h₁ h₂ h₃ hmem₁ rfl with
    ⟨pc, hin, _, hf⟩
  have hkey : path = pc.1 := by
    have := congrArg HashFragment.key hf
    simpa using this
  have hval : hash_file_harmonized path c₁ true =
      hash_file_harmonized pc.1 pc.2 true := by
    have := congrArg HashFragment.value hf
    simpa using this
  have hc : c₁ = pc.2 := by
    simp only [hash_file_harmonized] at hval
    injection hval with _ hargs
    injection hargs with _ hargs'
    injection hargs' with hcv _
    injection hcv
  have hpceq : (path, c₁) = pc := by
    rw [hkey, hc]
  have hpc : (path, c₁) ∈ updateContent files path c₂ := by
    rw [hpceq]
    exact hin
  rcases mem_updateContent hpc with ⟨_, hcc⟩ | ⟨_, hne⟩
  · exact h₆ hcc
  · exact hne rfl

/-- C3: the per-file content hash distinguishes any two different file
contents, and a content change in a self-input file matched by a task's
input patterns changes that task's plan digest (hence its cache key). -/
theorem file_content_sensitivity :
    ∀ (nx : NxJsonConfiguration) (pg : ProjectGraph)
      (files : List (String × String)) (ids : List String) (tg : TaskGraph)
      (tid path c₁ c₂ : String) (task : Task) (node : ProjectNode)
      (tc : TargetConfiguration),
    lookupKey tid tg.tasks = some task →
    lookupKey task.project pg.nodes = some node →
    lookupKey task.target node.targets = some tc →
    lookupKey path files = some c₁ →
    matchesInputs node.root tc.inputs path = true →
    c₁ ≠ c₂ →
    tid ∈ ids →
    hash_file_harmonized path c₁ true ≠ hash_file_harmonized path c₂ true ∧
    lookupKey tid (HashPlanner.getPlans
        { nxJson := nx, projectGraph := pg, files := files } ids tg) ≠
      lookupKey tid (HashPlanner.getPlans
        { nxJson := nx, projectGraph := pg,
          files := updateContent files path c₂ } ids tg) := by
  intro nx pg files ids tg tid path c₁ c₂ task node tc h₁ h₂ h₃ h₄ h₅ h₆ h₇
  constructor
  · intro h
    simp only [hash_file_harmonized] at h
    injection h with _ hargs
    injection hargs with _ hargs'
    injection hargs' with hcv _
    injection hcv with hc
    exact h₆ hc
  · rcases getPlansGo_lookup
      { nxJson := nx, projectGraph := pg, files := files } tg [] h₇ with
      ⟨m₁, hm₁⟩
    rcases getPlansGo_lookup
      { nxJson := nx, projectGraph := pg,
        files := updateContent files path c₂ } tg [] h₇ with ⟨m₂, hm₂⟩
    rw [HashPlanner.getPlans, HashPlanner.getPlans, hm₁, hm₂]
    intro hopt
    injection hopt with hplan
    exact taskPlan_file_sensitive nx pg files path c₁ c₂ tg tid m₁ m₂
      h₁ h₂ h₃ h₄ h₅ h₆ hplan

/-- Witness for C3: flipping one byte of `apps/app/main.ts` flips the
file digest and the digest of `app:build`, whose root matches the file. -/
theorem file_content_sensitivity_witness :
    hash_file_harmonized "apps/app/main.ts" "a" true ≠
      hash_file_harmonized "apps/app/main.ts" "b" true ∧
    lookupKey "app:build" (HashPlanner.getPlans
        { nxJson := emptyNxJson, projectGraph := exampleProjectGraph,
          files := [("apps/app/main.ts", "a")] } ["app:build"]
        { tasks :=
            [("app:build",
              { id := "app:build", project := "app", target := "build",
                configuration := none, continuous := false })],
          dependencies := [("app:build", [])],
          continuousDependencies := [("app:build", [])],
          roots := ["app:build"] }) ≠
      lookupKey "app:build" (HashPlanner.getPlans
        { nxJson := emptyNxJson, projectGraph := exampleProjectGraph,
          files := updateContent [("apps/app/main.ts", "a")]
            "apps/app/main.ts" "b" } ["app:build"]
        { tasks :=
            [("app:build",
              { id := "app:build", project := "app", target := "build",
                configuration := none, continuous := false })],
          dependencies := [("app:build", [])],
          continuousDependencies := [("app:build", [])],
          roots := ["app:build"] }) :=
  file_content_sensitivity emptyNxJson exampleProjectGraph
    [("apps/app/main.ts", "a")] ["app:build"]
    { tasks :=
        [("app:build",
          { id := "app:build", project := "app", target := "build",
            configuration := none, continuous := false })],
      dependencies := [("app:build", [])],
      continuousDependencies := [("app:build", [])],
      roots := ["app:build"] }
    "app:build" "apps/app/main.ts" "a" "b"
    { id := "app:build", project := "app", target := "build",
      configuration := none, continuous := false }
    { root := "apps/app",
      targets := [("build", exampleTarget [.upstream "build"])] }
    (exampleTarget [.upstream "build"])
    (by decide) (by decide) (by decide) (by decide) (by decide)
    (by decide) (by decide)

/-- Witness for C4: two insertion orders of the same two-field object
hash identically. -/
theorem hashObject_key_order_independent_witness :
    hashObject (.obj [("b", .num 2), ("a", .str "x")]) =
      hashObject (.obj [("a", .str "x"), ("b", .num 2)]) :=
  hashObject_key_order_independent
    [("b", .num 2), ("a", .str "x")] [("a", .str "x"), ("b", .num 2)]
    (List.Perm.swap _ _ _) (by decide)

theorem memoKeys_cons (s : TaskSpec) (e : TaskEntry) (memo : Memo) :
    memoKeys ((s, e) :: memo) = s :: memoKeys memo := rfl

theorem memoKeys_subset_of_suffix {memo memo' : Memo}
    (h : memo <:+ memo') : ∀ s, s ∈ memoKeys memo → s ∈ memoKeys memo' :=
  fun _ hs => (List.IsSuffix.map Prod.fst h).subset hs

theorem depSpec_eq {pg : ProjectGraph} {cfg : Option String}
    {p t : String} {node : ProjectNode} {tc : TargetConfiguration}
    {eff : Option String}
    (hn : lookupKey p pg.nodes = some node)
    (ht : lookupKey t node.targets = some tc)
    (hc : resolveConfiguration p t tc cfg = .ok eff) :
    depSpec pg cfg p t = some (⟨p, t, eff⟩, tc.continuous) := by
  simp [depSpec, hn, ht, hc]

theorem specDepsTagged_eq {pg : ProjectGraph} {cfg : Option String}
    {p t : String} {node : ProjectNode} {tc : TargetConfiguration}
    (hn : lookupKey p pg.nodes = some node)
    (ht : lookupKey t node.targets = some tc) (eff : Option String) :
    specDepsTagged pg cfg ⟨p, t, eff⟩ =
      (expandDeps pg p tc).filterMap fun pt' =>
        depSpec pg cfg pt'.1 pt'.2 := by
  simp [specDepsTagged, hn, ht]

theorem mem_specDeps_iff {pg : ProjectGraph} {cfg : Option String}
    {p t : String} {node : ProjectNode} {tc : TargetConfiguration}
    (hn : lookupKey p pg.nodes = some node)
    (ht : lookupKey t node.targets = some tc) (eff : Option String)
    (sp : TaskSpec) :
    sp ∈ specDeps pg cfg ⟨p, t, eff⟩ ↔
      ∃ pt' ∈ expandDeps pg p tc, ∃ b,
        depSpec pg cfg pt'.1 pt'.2 = some (sp, b) := by
  rw [specDeps, specDepsTagged_eq hn ht eff]
  constructor
  · intro h
    rcases List.mem_map.mp h with ⟨⟨sp', b⟩, hmem, hfst⟩
    rcases List.mem_filterMap.mp hmem with ⟨pt', hpt', hd⟩
    cases hfst
    exact ⟨pt', hpt', b, hd⟩
  · rintro ⟨pt', hpt', b, hd⟩
    exact List.mem_map.mpr ⟨(sp, b), List.mem_filterMap.mpr ⟨pt', hpt', hd⟩, rfl⟩

theorem foldExcept_ne_error {f : Memo → String × String → Except GraphError Memo}
    {E : GraphError} (hf : ∀ memo pt, f memo pt ≠ .error E) :
    ∀ (pts : List (String × String)) (memo : Memo),
      foldExcept f memo pts ≠ .error E := by
  intro pts
  induction pts with
  | nil => intro memo h; simp [foldExcept] at h
  | cons pt rest ih =>
    intro memo h
    rw [foldExcept] at h
    cases hstep : f memo pt with
    | error e =>
      rw [hstep] at h
      injection h with he
      exact hf memo pt (he ▸ hstep)
    | ok memo₁ =>
      rw [hstep] at h
      exact ih memo₁ h

theorem foldExcept_cycle_sound {pg : ProjectGraph} {cfg : Option String}
    {f : Memo → String × String → Except GraphError Memo} :
    ∀ (pts : List (String × String)),
      (∀ memo pt p, pt ∈ pts → f memo pt = .error (.cycleDetected p) →
        GenuineCycle pg cfg p) →
      ∀ (memo : Memo) (p : List TaskSpec),
        foldExcept f memo pts = .error (.cycleDetected p) →
        GenuineCycle pg cfg p := by
  intro pts
  induction pts with
  | nil => intro _ memo p h; simp [foldExcept] at h
  | cons pt rest ih =>
    intro hf memo p h
    rw [foldExcept] at h
    cases hstep : f memo pt with
    | error e =>
      rw [hstep] at h
      injection h with he
      exact hf memo pt p (List.mem_cons_self _ _) (he ▸ hstep)
    | ok memo₁ =>
      rw [hstep] at h
      exact ih (fun memo' pt' p' hmem => hf memo' pt' p'
        (List.mem_cons_of_mem _ hmem)) memo₁ p h

theorem foldExcept_ok_inv {pg : ProjectGraph} {cfg : Option String}
    {f : Memo → String × String → Except GraphError Memo}
    (V : List TaskSpec)
    (hf : ∀ memo pt memo', f memo pt = .ok memo' →
      WellFormed pg cfg memo →
      (memo <:+ memo') ∧ WellFormed pg cfg memo' ∧
      (∀ sp b, depSpec pg cfg pt.1 pt.2 = some (sp, b) →
        sp ∈ memoKeys memo') ∧
      (∀ s, s ∈ memoKeys memo' → s ∈ memoKeys memo ∨ s ∉ V)) :
    ∀ (pts : List (String × String)) (memo memo' : Memo),
      foldExcept f memo pts = .ok memo' → WellFormed pg cfg memo →
      (memo <:+ memo') ∧ WellFormed pg cfg memo' ∧
      (∀ pt ∈ pts, ∀ sp b, depSpec pg cfg pt.1 pt.2 = some (sp, b) →
        sp ∈ memoKeys memo') ∧
      (∀ s, s ∈ memoKeys memo' → s ∈ memoKeys memo ∨ s ∉ V) := by
  intro pts
  induction pts with
  | nil =>
    intro memo memo' h hwf
    rw [foldExcept] at h
    injection h with he
    subst he
    exact ⟨List.suffix_refl _, hwf, by simp, fun s hs => Or.inl hs⟩
  | cons pt rest ih =>
    intro memo memo' h hwf
    rw [foldExcept] at h
    cases hstep : f memo pt with
    | error e => rw [hstep] at h; exact absurd h (by simp)
    | ok memo₁ =>
      rw [hstep] at h
      rcases hf memo pt memo₁ hstep hwf with ⟨hsuf₁, hwf₁, hdep₁, hnew₁⟩
      rcases ih memo₁ memo' h hwf₁ with ⟨hsuf₂, hwf₂, hdep₂, hnew₂⟩
      refine ⟨hsuf₁.trans hsuf₂, hwf₂, ?_, ?_⟩
      · intro pt' hpt' sp b hd
        rcases List.mem_cons.mp hpt' with hh | hh
        · subst hh
          exact memoKeys_subset_of_suffix hsuf₂ sp (hdep₁ sp b hd)
        · exact hdep₂ pt' hh sp b hd
      · intro s hs
        rcases hnew₂ s hs with hs₁ | hs₁
        · exact hnew₁ s hs₁
        · exact Or.inr hs₁

theorem resolveTask_ok_inv {pg : ProjectGraph} {cfg : Option String} :
    ∀ (fuel : Nat) (visiting : List TaskSpec) (memo : Memo)
      (pt : String × String) (memo' : Memo),
      resolveTask pg cfg fuel visiting memo pt = .ok memo' →
      WellFormed pg cfg memo →
      (memo <:+ memo') ∧ WellFormed pg cfg memo' ∧
      (∀ sp b, depSpec pg cfg pt.1 pt.2 = some (sp, b) →
        sp ∈ memoKeys memo') ∧
      (∀ s, s ∈ memoKeys memo' → s ∈ memoKeys memo ∨ s ∉ visiting) := by
  intro fuel
  induction fuel with
  | zero =>
    intro visiting memo pt memo' h
    rw [resolveTask] at h
    exact absurd h (by simp)
  | succ fuel ih =>
    intro visiting memo pt memo' h hwf
    rw [resolveTask] at h
    cases hn : lookupKey pt.1 pg.nodes with
    | none =>
      simp only [hn] at h
      injection h with he
      subst he
      refine ⟨List.suffix_refl _, hwf, ?_, fun s hs => Or.inl hs⟩
      intro sp b hd
      simp [depSpec, hn] at hd
    | some node =>
      simp only [hn] at h
      cases ht : lookupKey pt.2 node.targets with
      | none =>
        simp only [ht] at h
        injection h with he
        subst he
        refine ⟨List.suffix_refl _, hwf, ?_, fun s hs => Or.inl hs⟩
        intro sp b hd
        simp [depSpec, hn, ht] at hd
      | some tc =>
        simp only [ht] at h
        cases hcfg : resolveConfiguration pt.1 pt.2 tc cfg with
        | error e =>
          simp only [hcfg] at h
          exact absurd h (by simp)
        | ok eff =>
          simp only [hcfg] at h
          by_cases hmemo : (⟨pt.1, pt.2, eff⟩ : TaskSpec) ∈ memoKeys memo
          · rw [if_pos hmemo] at h
            injection h with he
            subst he
            refine ⟨List.suffix_refl _, hwf, ?_, fun s hs => Or.inl hs⟩
            intro sp b hd
            rw [depSpec_eq hn ht hcfg] at hd
            injection hd with hd'
            have hsp : sp = ⟨pt.1, pt.2, eff⟩ :=
              (congrArg Prod.fst hd').symm
            rw [hsp]
            exact hmemo
          · rw [if_neg hmemo] at h
            by_cases hvis : (⟨pt.1, pt.2, eff⟩ : TaskSpec) ∈ visiting
            · rw [if_pos hvis] at h
              exact absurd h (by simp)
            · rw [if_neg hvis] at h
              cases hfold : foldExcept
                  (fun m pt' => resolveTask pg cfg fuel
                    (⟨pt.1, pt.2, eff⟩ :: visiting) m pt')
                  memo (expandDeps pg pt.1 tc) with
              | error e => rw [hfold] at h; exact absurd h (by simp)
              | ok memo₁ =>
                rw [hfold] at h
                injection h with he
                rcases foldExcept_ok_inv
                    ((⟨pt.1, pt.2, eff⟩ : TaskSpec) :: visiting)
                    (fun m pt' m' hstep hw =>
                      ih (⟨pt.1, pt.2, eff⟩ :: visiting) m pt' m' hstep hw)
                    (expandDeps pg pt.1 tc) memo memo₁ hfold hwf with
                  ⟨hsuf₁, hwf₁, hdep₁, hnew₁⟩
                have hspecmemo₁ : (⟨pt.1, pt.2, eff⟩ : TaskSpec) ∉
                    memoKeys memo₁ := by
                  intro hmem
                  rcases hnew₁ _ hmem with hin | hnin
                  · exact hmemo hin
                  · exact hnin (List.mem_cons_self _ _)
                have hdeps : ∀ d ∈ specDeps pg cfg ⟨pt.1, pt.2, eff⟩,
                    d ∈ memoKeys memo₁ := by
                  intro d hd
                  rcases (mem_specDeps_iff hn ht eff d).mp hd with
                    ⟨pt', hpt', b, hdep⟩
                  exact hdep₁ pt' hpt' d b hdep
                have hwf' : WellFormed pg cfg
                    ((⟨pt.1, pt.2, eff⟩, mkEntry pg cfg ⟨pt.1, pt.2, eff⟩ tc)
                      :: memo₁) :=
                  WellFormed.cons _ _ _ rfl rfl hdeps hspecmemo₁ hwf₁
                subst he
                refine ⟨?_, hwf', ?_, ?_⟩
                · exact hsuf₁.trans (List.suffix_cons _ _)
                · intro sp b hd
                  rw [depSpec_eq hn ht hcfg] at hd
                  injection hd with hd'
                  have hsp : sp = ⟨pt.1, pt.2, eff⟩ :=
                    (congrArg Prod.fst hd').symm
                  rw [hsp, memoKeys_cons]
                  exact List.mem_cons_self _ _
                · intro s hs
                  rw [memoKeys_cons] at hs
                  rcases List.mem_cons.mp hs with hh | hh
                  · subst hh
                    exact Or.inr hvis
                  · rcases hnew₁ s hh with hin | hnin
                    · exact Or.inl hin
                    · exact Or.inr fun hv =>
                        hnin (List.mem_cons_of_mem _ hv)

theorem wf_edge {pg : ProjectGraph} {cfg : Option String} :
    ∀ {memo : Memo}, WellFormed pg cfg memo →
    ∀ {s t : TaskSpec}, s ∈ memoKeys memo → t ∈ specDeps pg cfg s →
    t ∈ memoKeys memo ∧
      (memoKeys memo).indexOf s < (memoKeys memo).indexOf t := by
  intro memo hwf
  induction hwf with
  | nil => intro s t hs _; simp [memoKeys] at hs
  | cons s₀ e rest hb hc hdeps hnot hrest ih =>
    intro s t hs ht
    rw [memoKeys_cons] at hs ⊢
    rcases List.mem_cons.mp hs with hh | hh
    · subst hh
      have htr : t ∈ memoKeys rest := hdeps t ht
      have htne : (s == t) = false := by
        have : s ≠ t := fun he => hnot (he ▸ htr)
        simpa using this
      refine ⟨List.mem_cons_of_mem _ htr, ?_⟩
      rw [List.indexOf_cons, List.indexOf_cons, beq_self_eq_true, htne]
      simp
    · have hne : (s₀ == s) = false := by
        have : s₀ ≠ s := fun he => hnot (he ▸ hh)
        simpa using this
      rcases ih hh ht with ⟨htr, hlt⟩
      have htne : (s₀ == t) = false := by
        have : s₀ ≠ t := fun he => hnot (he ▸ htr)
        simpa using this
      refine ⟨List.mem_cons_of_mem _ htr, ?_⟩
      rw [List.indexOf_cons, List.indexOf_cons, hne, htne]
      simpa using hlt

theorem wf_reach {pg : ProjectGraph} {cfg : Option String} {memo : Memo}
    (hwf : WellFormed pg cfg memo) :
    ∀ {s t : TaskSpec}, Relation.TransGen (cycleRel pg cfg) s t →
      s ∈ memoKeys memo →
      t ∈ memoKeys memo ∧
        (memoKeys memo).indexOf s < (memoKeys memo).indexOf t := by
  intro s t htr
  induction htr with
  | single h => intro hs; exact wf_edge hwf hs h
  | tail hab hbc ih =>
    intro hs
    rcases ih hs with ⟨hb, hlt₁⟩
    rcases wf_edge hwf hb hbc with ⟨hcmem, hlt₂⟩
    exact ⟨hcmem, hlt₁.trans hlt₂⟩

theorem wf_expanded_mem {pg : ProjectGraph} {cfg : Option String}
    {reqs : List (String × String)} {memo : Memo}
    (hwf : WellFormed pg cfg memo)
    (hreq : ∀ pt ∈ reqs, ∀ sp b, depSpec pg cfg pt.1 pt.2 = some (sp, b) →
      sp ∈ memoKeys memo) :
    ∀ {s : TaskSpec}, ExpandedFrom pg cfg reqs s → s ∈ memoKeys memo := by
  rintro s ⟨s₀, ⟨pt, hpt, b, hdep⟩, hrt⟩
  induction hrt with
  | refl => exact hreq pt hpt s₀ b hdep
  | tail h₁ h₂ ih => exact (wf_edge hwf ih h₂).1

theorem createTaskGraph_ok_elim {pg : ProjectGraph}
    {projects targets : List String} {cfg : Option String} {tg : TaskGraph}
    (h : createTaskGraph pg projects targets cfg = .ok tg) :
    ∃ memo,
      foldExcept (fun memo pt => resolveTask pg cfg (builderFuel pg cfg) []
          memo pt) [] (requestedPairs projects targets) = .ok memo ∧
      WellFormed pg cfg memo ∧
      (∀ pt ∈ requestedPairs projects targets, ∀ sp b,
        depSpec pg cfg pt.1 pt.2 = some (sp, b) → sp ∈ memoKeys memo) := by
  rw [createTaskGraph] at h
  cases hr : foldExcept (fun memo pt => resolveTask pg cfg
      (builderFuel pg cfg) [] memo pt) [] (requestedPairs projects targets) with
  | error e => rw [hr] at h; exact absurd h (by simp)
  | ok memo =>
    rcases foldExcept_ok_inv ([] : List TaskSpec)
        (fun m pt m' hstep hw =>
          resolveTask_ok_inv (builderFuel pg cfg) [] m pt m' hstep hw)
        (requestedPairs projects targets) [] memo hr WellFormed.nil with
      ⟨_, hwf, hdeps, _⟩
    exact ⟨memo, hr ▸ rfl, hwf, hdeps⟩

theorem createTaskGraph_cyclic_not_ok {pg : ProjectGraph}
    {projects targets : List String} {cfg : Option String}
    (hcyc : InducesCycle pg cfg (requestedPairs projects targets)) :
    ∀ tg, createTaskGraph pg projects targets cfg ≠ .ok tg := by
  intro tg h
  rcases createTaskGraph_ok_elim h with ⟨memo, _, hwf, hreq⟩
  rcases hcyc with ⟨s, hexp, htr⟩
  have hs : s ∈ memoKeys memo := wf_expanded_mem hwf hreq hexp
  exact absurd (wf_reach hwf htr hs).2 (lt_irrefl _)

theorem resolveConfiguration_none (p t : String) (tc : TargetConfiguration) :
    resolveConfiguration p t tc none = .ok tc.defaultConfiguration := rfl

theorem resolveConfiguration_error_shape {p t : String}
    {tc : TargetConfiguration} {cfg : Option String} {e : GraphError}
    (h : resolveConfiguration p t tc cfg = .error e) :
    ∃ c, e = .missingConfiguration p t c := by
  cases cfg with
  | none => rw [resolveConfiguration_none] at h; exact absurd h (by simp)
  | some c =>
    rw [resolveConfiguration] at h
    by_cases hcont : tc.configurations.contains c
    · rw [if_pos hcont] at h; exact absurd h (by simp)
    · rw [if_neg hcont] at h
      cases hd : tc.defaultConfiguration with
      | none =>
        rw [hd] at h
        injection h with he
        exact ⟨c, he.symm⟩
      | some d => rw [hd] at h; exact absurd h (by simp)

theorem resolveTask_none_no_missing {pg : ProjectGraph} :
    ∀ (fuel : Nat) (visiting : List TaskSpec) (memo : Memo)
      (pt : String × String) (p t c : String),
      resolveTask pg none fuel visiting memo pt ≠
        .error (.missingConfiguration p t c) := by
  intro fuel
  induction fuel with
  | zero =>
    intro visiting memo pt p t c h
    rw [resolveTask] at h
    injection h with he
    exact absurd he (by simp)
  | succ fuel ih =>
    intro visiting memo pt p t c h
    rw [resolveTask] at h
    cases hn : lookupKey pt.1 pg.nodes with
    | none => simp only [hn] at h; exact absurd h (by simp)
    | some node =>
      simp only [hn] at h
      cases ht : lookupKey pt.2 node.targets with
      | none => simp only [ht] at h; exact absurd h (by simp)
      | some tc' =>
        simp only [ht, resolveConfiguration_none] at h
        by_cases hmemo : (⟨pt.1, pt.2, tc'.defaultConfiguration⟩ : TaskSpec) ∈
            memoKeys memo
        · rw [if_pos hmemo] at h; exact absurd h (by simp)
        · rw [if_neg hmemo] at h
          by_cases hvis : (⟨pt.1, pt.2, tc'.defaultConfiguration⟩ : TaskSpec) ∈
              visiting
          · rw [if_pos hvis] at h
            injection h with he
            exact absurd he (by simp)
          · rw [if_neg hvis] at h
            cases hfold : foldExcept
                (fun m pt' => resolveTask pg none fuel
                  (⟨pt.1, pt.2, tc'.defaultConfiguration⟩ :: visiting) m pt')
                memo (expandDeps pg pt.1 tc') with
            | error e =>
              rw [hfold] at h
              injection h with he
              exact foldExcept_ne_error
                (fun m pt' => ih _ m pt' p t c) _ memo (he ▸ hfold)
            | ok memo₁ => rw [hfold] at h; exact absurd h (by simp)

theorem spec_mem_allSpecs {pg : ProjectGraph} {cfg : Option String}
    {p t : String} {node : ProjectNode} {tc : TargetConfiguration}
    {eff : Option String}
    (hn : lookupKey p pg.nodes = some node)
    (ht : lookupKey t node.targets = some tc)
    (hc : resolveConfiguration p t tc cfg = .ok eff) :
    (⟨p, t, eff⟩ : TaskSpec) ∈ allSpecs pg cfg := by
  refine List.mem_flatMap.mpr ⟨(p, node), mem_of_lookupKey hn, ?_⟩
  refine List.mem_flatMap.mpr ⟨(t, tc), mem_of_lookupKey ht, ?_⟩
  cases cfg with
  | none =>
    rw [resolveConfiguration_none] at hc
    injection hc with he
    rw [← he]
    simp
  | some c =>
    rw [resolveConfiguration] at hc
    by_cases hcont : tc.configurations.contains c
    · rw [if_pos hcont] at hc
      injection hc with he
      rw [← he]
      simp
    · rw [if_neg hcont] at hc
      cases hd : tc.defaultConfiguration with
      | none => rw [hd] at hc; exact absurd hc (by simp)
      | some d =>
        rw [hd] at hc
        injection hc with he
        rw [← he, ← hd]
        simp

theorem resolveTask_no_fuel {pg : ProjectGraph} {cfg : Option String} :
    ∀ (fuel : Nat) (visiting : List TaskSpec) (memo : Memo)
      (pt : String × String),
      visiting.Nodup → (∀ v ∈ visiting, v ∈ allSpecs pg cfg) →
      (allSpecs pg cfg).length < fuel + visiting.length →
      resolveTask pg cfg fuel visiting memo pt ≠ .error .fuelExhausted := by
  intro fuel
  induction fuel with
  | zero =>
    intro visiting memo pt hnd hsub hlen h
    have : visiting.length ≤ (allSpecs pg cfg).length :=
      (List.subperm_of_subset hnd fun v hv => hsub v hv).length_le
    omega
  | succ fuel ih =>
    intro visiting memo pt hnd hsub hlen h
    rw [resolveTask] at h
    cases hn : lookupKey pt.1 pg.nodes with
    | none => simp only [hn] at h; exact absurd h (by simp)
    | some node =>
      simp only [hn] at h
      cases ht : lookupKey pt.2 node.targets with
      | none => simp only [ht] at h; exact absurd h (by simp)
      | some tc =>
        simp only [ht] at h
        cases hcfg : resolveConfiguration pt.1 pt.2 tc cfg with
        | error e =>
          simp only [hcfg] at h
          injection h with he
          rcases resolveConfiguration_error_shape hcfg with ⟨c, rfl⟩
          exact absurd he (by simp)
        | ok eff =>
          simp only [hcfg] at h
          by_cases hmemo : (⟨pt.1, pt.2, eff⟩ : TaskSpec) ∈ memoKeys memo
          · rw [if_pos hmemo] at h; exact absurd h (by simp)
          · rw [if_neg hmemo] at h
            by_cases hvis : (⟨pt.1, pt.2, eff⟩ : TaskSpec) ∈ visiting
            · rw [if_pos hvis] at h
              injection h with he
              exact absurd he (by simp)
            · rw [if_neg hvis] at h
              cases hfold : foldExcept
                  (fun m pt' => resolveTask pg cfg fuel
                    (⟨pt.1, pt.2, eff⟩ :: visiting) m pt')
                  memo (expandDeps pg pt.1 tc) with
              | error e =>
                rw [hfold] at h
                injection h with he
                refine foldExcept_ne_error
                  (fun m pt' => ih (⟨pt.1, pt.2, eff⟩ :: visiting) m pt'
                    (List.nodup_cons.mpr ⟨hvis, hnd⟩) ?_ ?_) _ memo
                  (he ▸ hfold)
                · intro v hv
                  rcases List.mem_cons.mp hv with hh | hh
                  · subst hh
                    exact spec_mem_allSpecs hn ht hcfg
                  · exact hsub v hh
                · simp only [List.length_cons]
                  omega
              | ok memo₁ => rw [hfold] at h; exact absurd h (by simp)

theorem head_dropWhile_bne {α : Type} [DecidableEq α] :
    ∀ (l : List α) (x : α), x ∈ l →
      (l.dropWhile fun v => v != x).head? = some x := by
  intro l x
  induction l with
  | nil => intro h; simp at h
  | cons y rest ih =>
    intro h
    by_cases hyx : y = x
    · subst hyx
      simp [List.dropWhile_cons]
    · have hb : (y != x) = true := by simpa using hyx
      rw [List.dropWhile_cons, hb]
      simp only [if_true]
      rcases List.mem_cons.mp h with hh | hh
      · exact absurd hh.symm hyx
      · exact ih hh

theorem getLast?_of_suffix {α : Type} {l₁ l₂ : List α}
    (h : l₂ <:+ l₁) (hne : l₂ ≠ []) : l₂.getLast? = l₁.getLast? := by
  rcases h with ⟨pre, rfl⟩
  exact (List.getLast?_append_of_ne_nil pre hne).symm

theorem cyclePath_genuine {pg : ProjectGraph} {cfg : Option String}
    {spec : TaskSpec} {visiting : List TaskSpec}
    (hmem : spec ∈ visiting)
    (hchain : List.Chain' (fun a b => a ∈ specDeps pg cfg b) visiting)
    (hpre : ∀ v rest, visiting = v :: rest → spec ∈ specDeps pg cfg v) :
    GenuineCycle pg cfg (cyclePath spec visiting) := by
  cases visiting with
  | nil => simp at hmem
  | cons v rest =>
    have hchain' : List.Chain' (flip (cycleRel pg cfg)) (v :: rest) := hchain
    have hw : List.Chain' (cycleRel pg cfg) (v :: rest).reverse :=
      (List.chain'_reverse).mpr hchain'
    have hmemw : spec ∈ (v :: rest).reverse := List.mem_reverse.mpr hmem
    have hhead : ((v :: rest).reverse.dropWhile fun x => x != spec).head? =
        some spec := head_dropWhile_bne _ spec hmemw
    have hsegne : ((v :: rest).reverse.dropWhile fun x => x != spec) ≠ [] := by
      intro hh
      rw [hh] at hhead
      simp at hhead
    have hsegchain : List.Chain' (cycleRel pg cfg)
        ((v :: rest).reverse.dropWhile fun x => x != spec) :=
      hw.suffix (List.dropWhile_suffix _)
    have hlast : ((v :: rest).reverse.dropWhile fun x => x != spec).getLast? =
        (v :: rest).reverse.getLast? :=
      getLast?_of_suffix (List.dropWhile_suffix _) hsegne
    have hwlast : (v :: rest).reverse.getLast? = some v := by
      rw [List.getLast?_reverse]
      rfl
    refine ⟨?_, ?_, ?_⟩
    · rw [cyclePath, List.length_append]
      have := List.length_pos.mpr hsegne
      simp only [List.length_singleton]
      omega
    · have hheadpath : (cyclePath spec (v :: rest)).head? = some spec := by
        rw [cyclePath]
        cases hseg : ((v :: rest).reverse.dropWhile fun x => x != spec) with
        | nil => exact absurd hseg hsegne
        | cons a seg' =>
          rw [hseg] at hhead
          simp only [List.head?_cons] at hhead
          simp [hhead]
      have hlastpath : (cyclePath spec (v :: rest)).getLast? = some spec := by
        rw [cyclePath, List.getLast?_append_of_ne_nil _ (by simp)]
        rfl
      rw [hheadpath, hlastpath]
    · rw [cyclePath]
      refine List.chain'_append.mpr ⟨hsegchain, List.chain'_singleton spec, ?_⟩
      intro x hx y hy
      rw [hlast, hwlast] at hx
      have hxv : v = x := by simpa using hx
      have hys : spec = y := by simpa using hy
      rw [← hxv, ← hys]
      exact hpre v rest rfl

theorem resolveTask_cycle_sound {pg : ProjectGraph} {cfg : Option String} :
    ∀ (fuel : Nat) (visiting : List TaskSpec) (memo : Memo)
      (pt : String × String) (p : List TaskSpec),
      List.Chain' (fun a b => a ∈ specDeps pg cfg b) visiting →
      (∀ v rest, visiting = v :: rest → ∀ sp b,
        depSpec pg cfg pt.1 pt.2 = some (sp, b) → sp ∈ specDeps pg cfg v) →
      resolveTask pg cfg fuel visiting memo pt = .error (.cycleDetected p) →
      GenuineCycle pg cfg p := by
  intro fuel
  induction fuel with
  | zero =>
    intro visiting memo pt p _ _ h
    rw [resolveTask] at h
    injection h with he
    exact absurd he (by simp)
  | succ fuel ih =>
    intro visiting memo pt p hchain hpre h
    rw [resolveTask] at h
    cases hn : lookupKey pt.1 pg.nodes with
    | none => simp only [hn] at h; exact absurd h (by simp)
    | some node =>
      simp only [hn] at h
      cases ht : lookupKey pt.2 node.targets with
      | none => simp only [ht] at h; exact absurd h (by simp)
      | some tc =>
        simp only [ht] at h
        cases hcfg : resolveConfiguration pt.1 pt.2 tc cfg with
        | error e =>
          simp only [hcfg] at h
          injection h with he
          rcases resolveConfiguration_error_shape hcfg with ⟨c, rfl⟩
          exact absurd he (by simp)
        | ok eff =>
          simp only [hcfg] at h
          by_cases hmemo : (⟨pt.1, pt.2, eff⟩ : TaskSpec) ∈ memoKeys memo
          · rw [if_pos hmemo] at h; exact absurd h (by simp)
          · rw [if_neg hmemo] at h
            by_cases hvis : (⟨pt.1, pt.2, eff⟩ : TaskSpec) ∈ visiting
            · rw [if_pos hvis] at h
              injection h with he
              injection he with hp
              rw [← hp]
              refine cyclePath_genuine hvis hchain ?_
              intro v rest hv
              exact hpre v rest hv ⟨pt.1, pt.2, eff⟩ tc.continuous
                (depSpec_eq hn ht hcfg)
            · rw [if_neg hvis] at h
              cases hfold : foldExcept
                  (fun m pt' => resolveTask pg cfg fuel
                    (⟨pt.1, pt.2, eff⟩ :: visiting) m pt')
                  memo (expandDeps pg pt.1 tc) with
              | error e =>
                rw [hfold] at h
                injection h with he
                refine foldExcept_cycle_sound (expandDeps pg pt.1 tc)
                  ?_ memo p (he ▸ hfold)
                intro m pt' p' hpt' hstep
                refine ih (⟨pt.1, pt.2, eff⟩ :: visiting) m pt' p' ?_ ?_ hstep
                · refine List.chain'_cons'.mpr ⟨?_, hchain⟩
                  intro y hy
                  cases visiting with
                  | nil => simp at hy
                  | cons v rest =>
                    simp only [List.head?_cons] at hy
                    have hyv : v = y := by simpa using hy
                    rw [← hyv]
                    exact hpre v rest rfl ⟨pt.1, pt.2, eff⟩ tc.continuous
                      (depSpec_eq hn ht hcfg)
                · intro v' rest' hv' sp b hdep
                  have hv'' : v' = ⟨pt.1, pt.2, eff⟩ := by
                    injection hv' with h₁ _
                    exact h₁.symm
                  rw [hv'']
                  exact (mem_specDeps_iff hn ht eff sp).mpr ⟨pt', hpt', b, hdep⟩
              | ok memo₁ => rw [hfold] at h; exact absurd h (by simp)

theorem createTaskGraph_cyclic_cycle_error {pg : ProjectGraph}
    {projects targets : List String}
    (hcyc : InducesCycle pg none (requestedPairs projects targets)) :
    ∃ p, createTaskGraph pg projects targets none =
        .error (.cycleDetected p) ∧ GenuineCycle pg none p := by
  cases hr : foldExcept (fun memo pt => resolveTask pg none
      (builderFuel pg none) [] memo pt) [] (requestedPairs projects targets) with
  | ok memo =>
    exfalso
    apply createTaskGraph_cyclic_not_ok hcyc (taskGraphOfMemo memo)
    rw [createTaskGraph, hr]
  | error e =>
    cases e with
    | missingConfiguration p t c =>
      exact absurd hr (foldExcept_ne_error
        (fun m pt => resolveTask_none_no_missing _ [] m pt p t c) _ [])
    | fuelExhausted =>
      refine absurd hr (foldExcept_ne_error
        (fun m pt => resolveTask_no_fuel (builderFuel pg none) [] m pt
          (by simp) (by simp) ?_) _ [])
      simp [builderFuel]
    | cycleDetected p =>
      refine ⟨p, by rw [createTaskGraph, hr], ?_⟩
      exact foldExcept_cycle_sound _
        (fun m pt p' _ hstep => resolveTask_cycle_sound
          (builderFuel pg none) [] m pt p' List.chain'_nil
          (fun v rest hv => absurd hv (by simp)) hstep) [] p hr

/-- C2 (amended): a `dependsOn` cycle among the expanded tasks makes
task-graph construction fail with a graph error before any hashing — the
response carries the empty graph, an empty plans map (no digest computed)
and the error message; every reported `CycleDetectedError` carries a
genuine full cycle path (from the repeated task id back to itself along
`dependsOn` edges); and when no configuration is requested — so no
`MissingConfigurationError` can preempt it — the error is exactly a
`CycleDetectedError` with such a path. -/
theorem cycle_handling_amended :
    ∀ (pg : ProjectGraph) (nx : NxJsonConfiguration) (tn : List String)
      (pn : Option (List String)) (cfg : Option String)
      (files : List (String × String)),
    (InducesCycle pg cfg (requestedPairs (projectsToUse pg tn pn) tn) →
      ∃ e, createTaskGraph pg (projectsToUse pg tn pn) tn cfg = .error e ∧
        createTaskGraphForTargetsAndProjects pg nx tn pn cfg files =
          { taskGraph := emptyTaskGraph, plans := [],
            error := some e.message }) ∧
    (∀ p, createTaskGraph pg (projectsToUse pg tn pn) tn cfg =
        .error (.cycleDetected p) → GenuineCycle pg cfg p) ∧
    (cfg = none →
      InducesCycle pg none (requestedPairs (projectsToUse pg tn pn) tn) →
      ∃ p, createTaskGraph pg (projectsToUse pg tn pn) tn none =
          .error (.cycleDetected p) ∧ GenuineCycle pg none p ∧
        createTaskGraphForTargetsAndProjects pg nx tn pn none files =
          { taskGraph := emptyTaskGraph, plans := [],
            error := some (GraphError.cycleDetected p).message }) := by
  intro pg nx tn pn cfg files
  refine ⟨?_, ?_, ?_⟩
  · intro hcyc
    cases hres : createTaskGraph pg (projectsToUse pg tn pn) tn cfg with
    | ok tg => exact absurd hres (createTaskGraph_cyclic_not_ok hcyc tg)
    | error e =>
      exact ⟨e, rfl, by simp [createTaskGraphForTargetsAndProjects, hres]⟩
  · intro p h
    rw [createTaskGraph] at h
    cases hr : foldExcept (fun memo pt => resolveTask pg cfg
        (builderFuel pg cfg) [] memo pt) []
        (requestedPairs (projectsToUse pg tn pn) tn) with
    | ok memo => rw [hr] at h; exact absurd h (by simp)
    | error e =>
      rw [hr] at h
      injection h with he
      exact foldExcept_cycle_sound _
        (fun m pt p' _ hstep => resolveTask_cycle_sound
          (builderFuel pg cfg) [] m pt p' List.chain'_nil
          (fun v rest hv => absurd hv (by simp)) hstep) [] p (he ▸ hr)
  · intro hcfg hcyc
    subst hcfg
    rcases createTaskGraph_cyclic_cycle_error hcyc with ⟨p, herr, hgen⟩
    exact ⟨p, herr, hgen,
      by simp [createTaskGraphForTargetsAndProjects, herr]⟩

/-- Counterexample to C2 as stated: `preemptProjectGraph` has a
`dependsOn` cycle among its expanded tasks, yet with configuration `prod`
requested the build fails with a `MissingConfigurationError` (for
`bbb:build`, visited first), not a `CycleDetectedError`. -/
theorem cycle_claim_counterexample :
    InducesCycle preemptProjectGraph (some "prod")
      (requestedPairs (projectsToUse preemptProjectGraph ["build"]
        (some ["bbb", "aaa"])) ["build"]) ∧
    createTaskGraph preemptProjectGraph
        (projectsToUse preemptProjectGraph ["build"] (some ["bbb", "aaa"]))
        ["build"] (some "prod") =
      .error (.missingConfiguration "bbb" "build" "prod") := by
  constructor
  · refine ⟨⟨"aaa", "build", some "prod"⟩,
      ⟨⟨"aaa", "build", some "prod"⟩,
        ⟨("aaa", "build"), by decide, false, by decide⟩,
        Relation.ReflTransGen.refl⟩, ?_⟩
    exact Relation.TransGen.head
      (show cycleRel preemptProjectGraph (some "prod")
        ⟨"aaa", "build", some "prod"⟩ ⟨"aaa", "lint", some "prod"⟩ by decide)
      (Relation.TransGen.single
        (show cycleRel preemptProjectGraph (some "prod")
          ⟨"aaa", "lint", some "prod"⟩ ⟨"aaa", "build", some "prod"⟩ by decide))
  · decide

/-- Witness for the amended C2: a self-referential `build`/`lint` cycle
with no requested configuration yields a `CycleDetectedError` with a
genuine cycle path and the empty-graph response. -/
theorem cycle_handling_amended_witness :
    ∃ p, createTaskGraph cycleProjectGraph
        (projectsToUse cycleProjectGraph ["build"] (some ["aaa"]))
        ["build"] none = .error (.cycleDetected p) ∧
      GenuineCycle cycleProjectGraph none p ∧
      createTaskGraphForTargetsAndProjects cycleProjectGraph emptyNxJson
          ["build"] (some ["aaa"]) none [] =
        { taskGraph := emptyTaskGraph, plans := [],
          error := some (GraphError.cycleDetected p).message } :=
  (cycle_handling_amended cycleProjectGraph emptyNxJson ["build"]
    (some ["aaa"]) none []).2.2 rfl
    ⟨⟨"aaa", "build", none⟩,
      ⟨⟨"aaa", "build", none⟩,
        ⟨("aaa", "build"), by decide, false, by decide⟩,
        Relation.ReflTransGen.refl⟩,
      Relation.TransGen.head
        (show cycleRel cycleProjectGraph none
          ⟨"aaa", "build", none⟩ ⟨"aaa", "lint", none⟩ by decide)
        (Relation.TransGen.single
          (show cycleRel cycleProjectGraph none
            ⟨"aaa", "lint", none⟩ ⟨"aaa", "build", none⟩ by decide))⟩

theorem statusOf_cons (t' : String) (o : TaskOutcome)
    (sts : List (String × TaskOutcome)) (t : String) :
    statusOf ((t', o) :: sts) t = if t' = t then o else statusOf sts t := by
  rw [statusOf, lookupKey_cons]
  by_cases h : t' = t
  · simp [h]
  · simp [h, statusOf]

theorem failedOrSkipped_iff {o : TaskOutcome} :
    failedOrSkipped o = true ↔ o = .failed ∨ o = .skipped := by
  cases o <;> simp [failedOrSkipped]

theorem settledOk_iff {o : TaskOutcome} :
    settledOk o = true ↔ o = .cached ∨ o = .succeeded := by
  cases o <;> simp [settledOk]

theorem continuousReady_iff {o : TaskOutcome} :
    continuousReady o = true ↔
      o = .started ∨ o = .cached ∨ o = .succeeded := by
  cases o <;> simp [continuousReady]

theorem mem_allDep_left {tg : TaskGraph} {t d : String}
    (h : d ∈ blockingDepsOf tg t) : d ∈ allDepIds tg t :=
  List.mem_append_left _ h

theorem mem_allDep_right {tg : TaskGraph} {t d : String}
    (h : d ∈ continuousDepsOf tg t) : d ∈ allDepIds tg t :=
  List.mem_append_right _ h

theorem dependsOnAny_of_blocking {tg : TaskGraph} {t d : String}
    (h : DependsOnBlocking tg t d) : DependsOnAny tg t d :=
  Relation.TransGen.mono (fun _ _ hb => mem_allDep_left hb) h

theorem schedInv_step {tg : TaskGraph} {cache exec : String → Bool}
    {X : String}
    (hexec : ∀ t, t ≠ X → exec t = true)
    (hwfdep : ∀ t d, d ∈ blockingDepsOf tg t → ∀ dt,
      lookupKey d tg.tasks = some dt → dt.continuous = false) :
    ∀ (seen : List String) (s : SchedulerState) (t : String),
      (lookupKey t tg.tasks).isSome = true → t ∉ seen →
      (∀ d ∈ allDepIds tg t, d ∈ seen) →
      SchedInv tg X seen s →
      SchedInv tg X (t :: seen) (scheduleStep tg cache exec s t) := by
  intro seen s t hlookSome htseen hdepsseen hinv
  rcases hinv with ⟨h1, h2, h3, h4, h5, h6⟩
  have hDB_of_fail :
      (blockingDepsOf tg t).any
        (fun d => failedOrSkipped (statusOf s.statuses d)) = true →
      DependsOnBlocking tg t X := by
    intro hfail
    rcases List.any_eq_true.mp hfail with ⟨d, hd, hds⟩
    rcases failedOrSkipped_iff.mp hds with hdf | hdsk
    · have hdX : d = X := h3 d hdf
      rw [hdX] at hd
      exact Relation.TransGen.single hd
    · exact Relation.TransGen.head hd (h5 d hdsk).1
  rw [scheduleStep]
  by_cases hfail : (blockingDepsOf tg t).any
      (fun d => failedOrSkipped (statusOf s.statuses d)) = true
  · rw [if_pos hfail]
    refine ⟨?_, ?_, ?_, ?_, ?_, ?_⟩
    · exact fun u hu => List.mem_cons_of_mem _ (h1 u hu)
    · intro u hu
      by_cases htu : t = u
      · exact htu ▸ List.mem_cons_self _ _
      · rw [statusOf_cons, if_neg htu] at hu
        exact List.mem_cons_of_mem _ (h2 u hu)
    · intro u hu
      by_cases htu : t = u
      · rw [statusOf_cons, if_pos htu] at hu
        exact absurd hu (by simp)
      · rw [statusOf_cons, if_neg htu] at hu
        exact h3 u hu
    · intro u hu
      by_cases htu : t = u
      · rw [statusOf_cons, if_pos htu] at hu
        exact absurd hu (by simp)
      · rw [statusOf_cons, if_neg htu] at hu
        exact h4 u hu
    · intro u hu
      by_cases htu : t = u
      · subst htu
        rw [statusOf_cons, if_pos rfl] at hu
        exact ⟨hDB_of_fail hfail, fun hd => htseen (h1 t hd)⟩
      · rw [statusOf_cons, if_neg htu] at hu
        exact h5 u hu
    · intro u hu hux hnd
      rcases List.mem_cons.mp hu with rfl | huseen
      · exact absurd (dependsOnAny_of_blocking (hDB_of_fail hfail)) hnd
      · have htu : t ≠ u := fun he => htseen (he ▸ huseen)
        rw [statusOf_cons, if_neg htu]
        exact h6 u huseen hux hnd
  · rw [if_neg hfail]
    by_cases hready : ((blockingDepsOf tg t).all
        (fun d => settledOk (statusOf s.statuses d)) &&
        (continuousDepsOf tg t).all
          (fun d => continuousReady (statusOf s.statuses d))) = true
    · rw [if_pos hready]
      cases hlook : lookupKey t tg.tasks with
      | none => rw [hlook] at hlookSome; simp at hlookSome
      | some task =>
        simp only [hlook]
        by_cases hcont : task.continuous = true
        · rw [if_pos hcont]
          refine ⟨?_, ?_, ?_, ?_, ?_, ?_⟩
          · intro u hu
            rcases List.mem_cons.mp hu with rfl | hu'
            · exact List.mem_cons_self _ _
            · exact List.mem_cons_of_mem _ (h1 u hu')
          · intro u hu
            by_cases htu : t = u
            · exact htu ▸ List.mem_cons_self _ _
            · rw [statusOf_cons, if_neg htu] at hu
              exact List.mem_cons_of_mem _ (h2 u hu)
          · intro u hu
            by_cases htu : t = u
            · rw [statusOf_cons, if_pos htu] at hu
              exact absurd hu (by simp)
            · rw [statusOf_cons, if_neg htu] at hu
              exact h3 u hu
          · intro u hu
            by_cases htu : t = u
            · subst htu
              exact ⟨task, hlook, hcont⟩
            · rw [statusOf_cons, if_neg htu] at hu
              exact h4 u hu
          · intro u hu
            by_cases htu : t = u
            · rw [statusOf_cons, if_pos htu] at hu
              exact absurd hu (by simp)
            · rw [statusOf_cons, if_neg htu] at hu
              refine ⟨(h5 u hu).1, ?_⟩
              intro hd
              rcases List.mem_cons.mp hd with he | hd'
              · exact htu he.symm
              · exact (h5 u hu).2 hd'
          · intro u hu hux hnd
            rcases List.mem_cons.mp hu with rfl | huseen
            · rw [statusOf_cons, if_pos rfl]
              exact Or.inr (Or.inr rfl)
            · have htu : t ≠ u := fun he => htseen (he ▸ huseen)
              rw [statusOf_cons, if_neg htu]
              exact h6 u huseen hux hnd
        · rw [if_neg hcont]
          by_cases hcache : cache t = true
          · rw [if_pos hcache]
            refine ⟨?_, ?_, ?_, ?_, ?_, ?_⟩
            · exact fun u hu => List.mem_cons_of_mem _ (h1 u hu)
            · intro u hu
              by_cases htu : t = u
              · exact htu ▸ List.mem_cons_self _ _
              · rw [statusOf_cons, if_neg htu] at hu
                exact List.mem_cons_of_mem _ (h2 u hu)
            · intro u hu
              by_cases htu : t = u
              · rw [statusOf_cons, if_pos htu] at hu
                exact absurd hu (by simp)
              · rw [statusOf_cons, if_neg htu] at hu
                exact h3 u hu
            · intro u hu
              by_cases htu : t = u
              · rw [statusOf_cons, if_pos htu] at hu
                exact absurd hu (by simp)
              · rw [statusOf_cons, if_neg htu] at hu
                exact h4 u hu
            · intro u hu
              by_cases htu : t = u
              · rw [statusOf_cons, if_pos htu] at hu
                exact absurd hu (by simp)
              · rw [statusOf_cons, if_neg htu] at hu
                exact h5 u hu
            · intro u hu hux hnd
              rcases List.mem_cons.mp hu with rfl | huseen
              · rw [statusOf_cons, if_pos rfl]
                exact Or.inl rfl
              · have htu : t ≠ u := fun he => htseen (he ▸ huseen)
                rw [statusOf_cons, if_neg htu]
                exact h6 u huseen hux hnd
          · rw [if_neg hcache]
            by_cases hex : exec t = true
            · rw [if_pos hex]
              refine ⟨?_, ?_, ?_, ?_, ?_, ?_⟩
              · intro u hu
                rcases List.mem_cons.mp hu with rfl | hu'
                · exact List.mem_cons_self _ _
                · exact List.mem_cons_of_mem _ (h1 u hu')
              · intro u hu
                by_cases htu : t = u
                · exact htu ▸ List.mem_cons_self _ _
                · rw [statusOf_cons, if_neg htu] at hu
                  exact List.mem_cons_of_mem _ (h2 u hu)
              · intro u hu
                by_cases htu : t = u
                · rw [statusOf_cons, if_pos htu] at hu
                  exact absurd hu (by simp)
                · rw [statusOf_cons, if_neg htu] at hu
                  exact h3 u hu
              · intro u hu
                by_cases htu : t = u
                · rw [statusOf_cons, if_pos htu] at hu
                  exact absurd hu (by simp)
                · rw [statusOf_cons, if_neg htu] at hu
                  exact h4 u hu
              · intro u hu
                by_cases htu : t = u
                · rw [statusOf_cons, if_pos htu] at hu
                  exact absurd hu (by simp)
                · rw [statusOf_cons, if_neg htu] at hu
                  refine ⟨(h5 u hu).1, ?_⟩
                  intro hd
                  rcases List.mem_cons.mp hd with he | hd'
                  · exact htu he.symm
                  · exact (h5 u hu).2 hd'
              · intro u hu hux hnd
                rcases List.mem_cons.mp hu with rfl | huseen
                · rw [statusOf_cons, if_pos rfl]
                  exact Or.inr (Or.inl rfl)
                · have htu : t ≠ u := fun he => htseen (he ▸ huseen)
                  rw [statusOf_cons, if_neg htu]
                  exact h6 u huseen hux hnd
            · rw [if_neg hex]
              have htX : t = X := by
                by_contra hne
                exact hex (hexec t hne)
              refine ⟨?_, ?_, ?_, ?_, ?_, ?_⟩
              · intro u hu
                rcases List.mem_cons.mp hu with rfl | hu'
                · exact List.mem_cons_self _ _
                · exact List.mem_cons_of_mem _ (h1 u hu')
              · intro u hu
                by_cases htu : t = u
                · exact htu ▸ List.mem_cons_self _ _
                · rw [statusOf_cons, if_neg htu] at hu
                  exact List.mem_cons_of_mem _ (h2 u hu)
              · intro u hu
                by_cases htu : t = u
                · exact htu ▸ htX
                · rw [statusOf_cons, if_neg htu] at hu
                  exact h3 u hu
              · intro u hu
                by_cases htu : t = u
                · rw [statusOf_cons, if_pos htu] at hu
                  exact absurd hu (by simp)
                · rw [statusOf_cons, if_neg htu] at hu
                  exact h4 u hu
              · intro u hu
                by_cases htu : t = u
                · rw [statusOf_cons, if_pos htu] at hu
                  exact absurd hu (by simp)
                · rw [statusOf_cons, if_neg htu] at hu
                  refine ⟨(h5 u hu).1, ?_⟩
                  intro hd
                  rcases List.mem_cons.mp hd with he | hd'
                  · exact htu he.symm
                  · exact (h5 u hu).2 hd'
              · intro u hu hux hnd
                rcases List.mem_cons.mp hu with rfl | huseen
                · exact absurd htX hux
                · have htu : t ≠ u := fun he => htseen (he ▸ huseen)
                  rw [statusOf_cons, if_neg htu]
                  exact h6 u huseen hux hnd
    · rw [if_neg hready]
      have hgood : ∀ u, u ∈ t :: seen → u ≠ X → ¬ DependsOnAny tg u X →
          statusOf s.statuses u = .cached ∨
          statusOf s.statuses u = .succeeded ∨
          statusOf s.statuses u = .started := by
        intro u hu hux hnd
        rcases List.mem_cons.mp hu with rfl | huseen
        · exfalso
          apply hready
          have hallok : (blockingDepsOf tg u).all
              (fun d => settledOk (statusOf s.statuses d)) = true := by
            refine List.all_eq_true.mpr ?_
            intro d hd
            have hdseen : d ∈ seen := hdepsseen d (mem_allDep_left hd)
            have hdX : d ≠ X := by
              rintro rfl
              exact hnd (Relation.TransGen.single (mem_allDep_left hd))
            have hdnd : ¬ DependsOnAny tg d X := fun hdep =>
              hnd (Relation.TransGen.head (mem_allDep_left hd) hdep)
            rcases h6 d hdseen hdX hdnd with hc | hc | hc
            · rw [hc]; rfl
            · rw [hc]; rfl
            · exfalso
              rcases h4 d hc with ⟨dt, hlookd, hdcont⟩
              rw [hwfdep u d hd dt hlookd] at hdcont
              exact Bool.false_ne_true hdcont
          have hcontok : (continuousDepsOf tg u).all
              (fun d => continuousReady (statusOf s.statuses d)) = true := by
            refine List.all_eq_true.mpr ?_
            intro d hd
            have hdseen : d ∈ seen := hdepsseen d (mem_allDep_right hd)
            have hdX : d ≠ X := by
              rintro rfl
              exact hnd (Relation.TransGen.single (mem_allDep_right hd))
            have hdnd : ¬ DependsOnAny tg d X := fun hdep =>
              hnd (Relation.TransGen.head (mem_allDep_right hd) hdep)
            rcases h6 d hdseen hdX hdnd with hc | hc | hc
            · rw [hc]; rfl
            · rw [hc]; rfl
            · rw [hc]; rfl
          rw [hallok, hcontok]
          rfl
        · exact h6 u huseen hux hnd
      exact ⟨fun u hu => List.mem_cons_of_mem _ (h1 u hu),
        fun u hu => List.mem_cons_of_mem _ (h2 u hu), h3, h4, h5, hgood⟩

theorem schedule_inv_fold {tg : TaskGraph} {cache exec : String → Bool}
    {X : String}
    (hexec : ∀ t, t ≠ X → exec t = true)
    (hwfdep : ∀ t d, d ∈ blockingDepsOf tg t → ∀ dt,
      lookupKey d tg.tasks = some dt → dt.continuous = false) :
    ∀ (order : List String) (seen : List String) (s : SchedulerState),
      validTopoAux tg seen order = true → SchedInv tg X seen s →
      ∃ seen', (∀ u, u ∈ seen' ↔ u ∈ order ∨ u ∈ seen) ∧
        SchedInv tg X seen'
          (order.foldl (scheduleStep tg cache exec) s) := by
  intro order
  induction order with
  | nil =>
    intro seen s _ hinv
    exact ⟨seen, fun u => by simp, hinv⟩
  | cons t rest ih =>
    intro seen s hvt hinv
    rw [validTopoAux] at hvt
    have hvt' := hvt
    simp only [Bool.and_eq_true] at hvt'
    rcases hvt' with ⟨⟨⟨hsome, hnotseen⟩, hdeps⟩, hrest⟩
    have hnotseen' : t ∉ seen := by simpa using hnotseen
    have hdeps' : ∀ d ∈ allDepIds tg t, d ∈ seen := by
      intro d hd
      have := List.all_eq_true.mp hdeps d hd
      simpa using this
    have hstep := @schedInv_step tg cache exec X hexec hwfdep seen s t hsome
      hnotseen' hdeps' hinv
    rcases ih (t :: seen) (scheduleStep tg cache exec s t) hrest hstep with
      ⟨seen', hiff, hinv'⟩
    refine ⟨seen', ?_, hinv'⟩
    intro u
    rw [hiff u]
    simp only [List.mem_cons]
    tauto

/-- C8: failure isolation — with `X` the only failing execution, every
`Skipped` task is a transitive blocking dependent of `X` and is never
dispatched, while a requested task `Y` with no dependency path to or from
`X` still reaches `Succeeded` or `Cached`. -/
theorem scheduler_failure_isolation :
    ∀ (tg : TaskGraph) (cache exec : String → Bool) (order : List String)
      (X Y : String),
    validTopo tg order = true →
    (∀ t d, d ∈ blockingDepsOf tg t → ∀ dt,
      lookupKey d tg.tasks = some dt → dt.continuous = false) →
    (∀ t, t ≠ X → exec t = true) →
    exec X = false → cache X = false →
    (∀ task, lookupKey X tg.tasks = some task → task.continuous = false) →
    Y ∈ order → Y ≠ X →
    (∀ task, lookupKey Y tg.tasks = some task → task.continuous = false) →
    ¬ DependsOnAny tg Y X → ¬ DependsOnAny tg X Y →
    (∀ t, statusOf (schedule tg cache exec order).statuses t = .skipped →
      DependsOnBlocking tg t X ∧
        t ∉ (schedule tg cache exec order).dispatched) ∧
    (statusOf (schedule tg cache exec order).statuses Y = .cached ∨
      statusOf (schedule tg cache exec order).statuses Y = .succeeded) := by
  intro tg cache exec order X Y hvt hwfdep hexec _ _ _ hYorder hYX hYtask
    hYnd _
  have hbase : SchedInv tg X [] { statuses := [], dispatched := [] } := by
    refine ⟨?_, ?_, ?_, ?_, ?_, ?_⟩ <;>
      intro u hu <;> simp [statusOf, lookupKey] at hu ⊢
  rcases schedule_inv_fold hexec hwfdep order [] _ hvt hbase with
    ⟨seen', hiff, hinv⟩
  rcases hinv with ⟨_, _, _, h4, h5, h6⟩
  constructor
  · exact fun t ht => h5 t ht
  · have hYseen : Y ∈ seen' := (hiff Y).mpr (Or.inl hYorder)
    rcases h6 Y hYseen hYX hYnd with hc | hc | hc
    · exact Or.inl hc
    · exact Or.inr hc
    · exfalso
      rcases h4 Y hc with ⟨task, hlook, hcont⟩
      rw [hYtask task hlook] at hcont
      exact Bool.false_ne_true hcont

theorem transGen_head_elim {α : Type} {r : α → α → Prop} {a b : α}
    (h : Relation.TransGen r a b) : ∃ c, r a c := by
  induction h with
  | single h' => exact ⟨_, h'⟩
  | tail _ _ ih => exact ih

/-- Witness for C8 on the concrete scenario: with `xxx:build` the only
failing task, `yyy:build` still succeeds while `zzz:build`, the dependent
of the failed task, is skipped without dispatch. -/
theorem scheduler_failure_isolation_witness :
    (statusOf (schedule isolationTaskGraph (fun _ => false)
        (fun t => !(t == "xxx:build"))
        ["xxx:build", "zzz:build", "yyy:build"]).statuses "yyy:build" =
          .cached ∨
      statusOf (schedule isolationTaskGraph (fun _ => false)
        (fun t => !(t == "xxx:build"))
        ["xxx:build", "zzz:build", "yyy:build"]).statuses "yyy:build" =
          .succeeded) ∧
    (DependsOnBlocking isolationTaskGraph "zzz:build" "xxx:build" ∧
      "zzz:build" ∉ (schedule isolationTaskGraph (fun _ => false)
        (fun t => !(t == "xxx:build"))
        ["xxx:build", "zzz:build", "yyy:build"]).dispatched) := by
  have hwfdep : ∀ t d, d ∈ blockingDepsOf isolationTaskGraph t → ∀ dt,
      lookupKey d isolationTaskGraph.tasks = some dt →
        dt.continuous = false := by
    intro t d hd dt hlookdt
    by_cases h1 : t = "xxx:build"
    · subst h1
      simp [blockingDepsOf, lookupKey] at hd
    · by_cases h2 : t = "zzz:build"
      · subst h2
        simp [blockingDepsOf, lookupKey] at hd
        subst hd
        have hx : lookupKey "xxx:build" isolationTaskGraph.tasks =
            some { id := "xxx:build", project := "xxx", target := "build",
                   configuration := none, continuous := false } := by decide
        rw [hx] at hlookdt
        injection hlookdt with he
        rw [← he]
      · by_cases h3 : t = "yyy:build"
        · subst h3
          simp [blockingDepsOf, lookupKey] at hd
        · have h1' : ¬ ("xxx:build" = t) := fun h => h1 h.symm
          have h2' : ¬ ("zzz:build" = t) := fun h => h2 h.symm
          have h3' : ¬ ("yyy:build" = t) := fun h => h3 h.symm
          simp [blockingDepsOf, lookupKey, h1', h2', h3'] at hd
  have hYnd : ¬ DependsOnAny isolationTaskGraph "yyy:build" "xxx:build" := by
    intro h
    rcases transGen_head_elim h with ⟨c, hc⟩
    simp [anyDepEdge, allDepIds, blockingDepsOf, continuousDepsOf,
      lookupKey] at hc
  have hXnd : ¬ DependsOnAny isolationTaskGraph "xxx:build" "yyy:build" := by
    intro h
    rcases transGen_head_elim h with ⟨c, hc⟩
    simp [anyDepEdge, allDepIds, blockingDepsOf, continuousDepsOf,
      lookupKey] at hc
  have main := scheduler_failure_isolation isolationTaskGraph
    (fun _ => false) (fun t => !(t == "xxx:build"))
    ["xxx:build", "zzz:build", "yyy:build"] "xxx:build" "yyy:build"
    (by decide) hwfdep
    (by intro t ht; simp [ht]) rfl rfl
    (by
      intro task h
      have hx : lookupKey "xxx:build" isolationTaskGraph.tasks =
          some { id := "xxx:build", project := "xxx", target := "build",
                 configuration := none, continuous := false } := by decide
      rw [hx] at h
      injection h with he
      rw [← he])
    (by decide) (by decide)
    (by
      intro task h
      have hy : lookupKey "yyy:build" isolationTaskGraph.tasks =
          some { id := "yyy:build", project := "yyy", target := "build",
                 configuration := none, continuous := false } := by decide
      rw [hy] at h
      injection h with he
      rw [← he])
    hYnd hXnd
  exact ⟨main.2, main.1 "zzz:build" (by decide)⟩

/-- Witness for C9 on the worked example: with no project names given,
both `app` and `lib` (each defining `build`) are selected. -/
theorem default_project_selection_witness :
    projectsToUse exampleProjectGraph ["build"] none =
      projectsWithAnyTarget exampleProjectGraph ["build"] ∧
    ("app" ∈ projectsToUse exampleProjectGraph ["build"] none ↔
      ∃ node, ("app", node) ∈ exampleProjectGraph.nodes ∧
        ∃ t ∈ ["build"], (lookupKey t node.targets).isSome) :=
  ⟨(default_project_selection exampleProjectGraph ["build"] none emptyNxJson
      none [] (Or.inl rfl)).1,
   (default_project_selection exampleProjectGraph ["build"] none emptyNxJson
      none [] (Or.inl rfl)).2.1 "app"⟩

end Nx
